import Mathlib

/-!
Verification of the `orbits` layered virtual file tree library.

Paths are modelled as lists of components (`List String`), mirroring
`std::path::Path::components()`.  The trie of `src/tree.rs` is modelled by the
mutual inductives `RawNode` / `ChildMap`: `ChildMap` is an association list
standing for the `HashMap<String, RawNode<RawTreeNode>>` of the source (order
of siblings is unspecified in the source; the model fixes front-insertion).
File bytes are `List Nat`, loader errors are an abstract type parameter, and a
Rust `panic!`/`expect`/`assert!` is modelled by an `Option`-valued operation
returning `none`.
-/

/-- Mirror of `FileEntryType` in `src/lib.rs`. -/
inductive FileEntryType where
  | Directory
  | File
deriving DecidableEq, Repr

/-- Mirror of `Node` in `src/tree/node.rs`: name (the key), local path, root path. -/
structure Node where
  name : String
  local_path : List String
  root_path : List String
deriving DecidableEq, Repr

/-- Mirror of `RawTreeNode` in `src/tree.rs`: a `Node` plus its entry type. -/
structure RawTreeNode where
  raw : Node
  entry_type : FileEntryType
deriving DecidableEq, Repr

mutual
/-- Mirror of `RawNode<RawTreeNode>` in `src/tree.rs`: payload plus child map. -/
inductive RawNode where
  | mk (data : RawTreeNode) (children : ChildMap)

/-- Association-list model of the `HashMap<String, RawNode>` of children. -/
inductive ChildMap where
  | nil
  | cons (key : String) (node : RawNode) (rest : ChildMap)
end

/-- The payload of a node. -/
def RawNode.data : RawNode → RawTreeNode
  | .mk d _ => d

/-- The children of a node. -/
def RawNode.children : RawNode → ChildMap
  | .mk _ cs => cs

/-- Mirror of `HashMap::get` on the child map. -/
def ChildMap.find : ChildMap → String → Option RawNode
  | .nil, _ => none
  | .cons k c rest, key => if k = key then some c else rest.find key

/-- Mirror of `HashMap::insert` over an existing key: replace the bound node. -/
def ChildMap.set : ChildMap → String → RawNode → ChildMap
  | .nil, _, _ => .nil
  | .cons k c rest, key, v =>
      if k = key then .cons k v (rest.set key v) else .cons k c (rest.set key v)

/-- Mirror of `HashMap::remove`: drop the entry bound to the key. -/
def ChildMap.removeKey : ChildMap → String → ChildMap
  | .nil, _ => .nil
  | .cons k c rest, key => if k = key then rest else .cons k c (rest.removeKey key)

/-- The list of keys of the child map. -/
def ChildMap.keys : ChildMap → List String
  | .nil => []
  | .cons k _ rest => k :: rest.keys

/-- Mirror of `RawNode::add_child` (src/tree.rs lines 84-98): insert a fresh
node (`Self::new(data)`, empty children) under the payload's key; with
`overwrite` the previous node is replaced and its payload returned. -/
def RawNode.add_child (n : RawNode) (d : RawTreeNode) (overwrite : Bool) :
    RawNode × Option RawTreeNode :=
  match n.children.find d.raw.name with
  | some old =>
      if overwrite then
        (RawNode.mk n.data (n.children.set d.raw.name (RawNode.mk d ChildMap.nil)),
         some old.data)
      else (n, none)
  | none => (RawNode.mk n.data (ChildMap.cons d.raw.name (RawNode.mk d ChildMap.nil) n.children), none)

/-- Mirror of `Tree::get_path` (src/tree.rs lines 136-152): walk the trie one
component at a time; the empty path names the root node itself. -/
def RawNode.getPath : RawNode → List String → Option RawNode
  | n, [] => some n
  | n, k :: ks =>
      match n.children.find k with
      | some c => c.getPath ks
      | none => none

/-- The payload found at a path, if any. -/
def dataAt (t : RawNode) (p : List String) : Option RawTreeNode :=
  (t.getPath p).map RawNode.data

/-- Mirror of `Tree::contains_path` (src/tree.rs lines 196-198). -/
def contains_path (t : RawNode) (p : List String) : Bool :=
  (t.getPath p).isSome

/-- Mirror of `Tree::get_root_for_path` (src/tree.rs lines 350-356). -/
def get_root_for_path (t : RawNode) (p : List String) : Option (List String) :=
  (t.getPath p).map (fun n => n.data.raw.root_path)

/-- Apply a payload-and-children update to the node at a path (the functional
rendering of the `get_path_mut` + mutation idiom of the source); `none` when
the path does not resolve. -/
def RawNode.updAt : RawNode → List String → (RawNode → RawNode × Option RawTreeNode) →
    Option (RawNode × Option RawTreeNode)
  | n, [], f => some (f n)
  | n, k :: ks, f =>
      match n.children.find k with
      | none => none
      | some c =>
          match c.updAt ks f with
          | none => none
          | some (c2, r) => some (RawNode.mk n.data (n.children.set k c2), r)

/-- Mirror of `Node::new` (src/tree/node.rs): requires a final file-name
component; `none` models the `NoFileName` error. -/
def Node.new (root_path local_path : List String) : Option Node :=
  match local_path.getLast? with
  | some name => some ⟨name, local_path, root_path⟩
  | none => none

/-- Mirror of `Tree::insert_path_unchecked` (src/tree.rs lines 200-227).
The recursion of the source is on the parent path (one component shorter), so
the model carries an explicit fuel that callers set to `local_path.length`,
which is exactly the recursion depth of the source.  `none` models a panic:
`Node::new(..).unwrap()` on a path with no file name, the `assert!` on the
recursive ancestor insert, or the `PhantomNode` panic. -/
def insertAux : Nat → RawNode → List String → List String → FileEntryType →
    Option (RawNode × Option (List String × List String))
  | 0, _, _, _, _ => none
  | fuel + 1, t, root_path, local_path, ty =>
      let pp := local_path.dropLast
      let ensured : Option RawNode :=
        if pp = [] then some t
        else
          match t.getPath pp with
          | some _ => some t
          | none =>
              match insertAux fuel t [] pp FileEntryType.Directory with
              | some (t1, none) => some t1
              | some (_, some _) => none
              | none => none
      match ensured with
      | none => none
      | some t1 =>
          let nd? :=
            match ty with
            | FileEntryType.Directory => Node.new [] local_path
            | FileEntryType.File => Node.new root_path local_path
          match nd? with
          | none => none
          | some nd =>
              match t1.updAt pp (fun m => m.add_child ⟨nd, ty⟩ true) with
              | none => none
              | some (t2, r) => some (t2, r.map (fun d => (d.raw.root_path, d.raw.local_path)))

/-- `insert_path_unchecked` with the fuel the source's recursion depth gives it. -/
def insert_path_unchecked (t : RawNode) (root_path local_path : List String)
    (ty : FileEntryType) : Option (RawNode × Option (List String × List String)) :=
  insertAux local_path.length t root_path local_path ty

/-- Mirror of `Tree::insert_file` (src/tree.rs lines 231-233). -/
def insert_file (t : RawNode) (root_path local_path : List String) :
    Option (RawNode × Option (List String × List String)) :=
  insert_path_unchecked t root_path local_path FileEntryType.File

/-- Mirror of `Tree::insert_directory` (src/tree.rs lines 237-239). -/
def insert_directory (t : RawNode) (root_path local_path : List String) :
    Option (RawNode × Option (List String × List String)) :=
  insert_path_unchecked t root_path local_path FileEntryType.Directory

/-- Mirror of `Tree::remove_path` (src/tree.rs lines 252-276).  The outer
`none` models the `expect("Path does not contain file name!")` panic on a path
with no final component; an inner `none` (path absent) is the source's
`None` return with the tree unchanged. -/
def remove_path (t : RawNode) (p : List String) :
    Option (RawNode × Option (List String × List String)) :=
  match p.getLast? with
  | none => none
  | some name =>
      match t.updAt p.dropLast
          (fun m => (RawNode.mk m.data (m.children.removeKey name),
                     (m.children.find name).map RawNode.data)) with
      | none => some (t, none)
      | some (t1, r) => some (t1, r.map (fun d => (d.raw.root_path, d.raw.local_path)))

mutual
/-- Mirror of `Tree::walk_paths` (src/tree.rs lines 300-310): depth-first
pre-order visit of every node except the root, collecting the payloads. -/
def walkAll : RawNode → List RawTreeNode
  | .mk _ cs => walkChildren cs

/-- Walk of the children of a node: each child's payload, then its subtree. -/
def walkChildren : ChildMap → List RawTreeNode
  | .nil => []
  | .cons _ c rest => (c.data :: walkAll c) ++ walkChildren rest
end

/-- No key appears twice. -/
def nodupB : List String → Bool
  | [] => true
  | x :: xs => !(xs.contains x) && nodupB xs

mutual
/-- Structural well-formedness of the trie at position `p`: every node's
stored `local_path` is its position, keys are unique among siblings, and each
child's stored name is its key.  Every tree built through the source's API
satisfies this. -/
def wfAt : RawNode → List String → Bool
  | .mk d cs, p => (d.raw.local_path = p) && nodupB cs.keys && wfChildren cs p

/-- Well-formedness of a child map whose owner sits at position `p`. -/
def wfChildren : ChildMap → List String → Bool
  | .nil, _ => true
  | .cons k c rest, p => (c.data.raw.name = k) && wfAt c (p ++ [k]) && wfChildren rest p
end

/-- The folding phase of `remove_paths_by_root`: remove each collected local
path in turn, keeping the local paths of the removals that found their node. -/
def rpbrFold : RawNode → List (List String) → Option (RawNode × List (List String))
  | t, [] => some (t, [])
  | t, lp :: rest =>
      match remove_path t lp with
      | none => none
      | some (t1, r) =>
          match rpbrFold t1 rest with
          | none => none
          | some (t2, acc) =>
              some (t2, (match r with | some (_, loc) => [loc] | none => []) ++ acc)

/-- Mirror of `Tree::remove_paths_by_root` (src/tree.rs lines 279-297): walk
the whole tree collecting every local path bound to the root, then remove each
one, returning the local paths of the removals that succeeded. -/
def remove_paths_by_root (t : RawNode) (root : List String) :
    Option (RawNode × List (List String)) :=
  rpbrFold t (((walkAll t).filter (fun d => d.raw.root_path = root)).map
    (fun d => d.raw.local_path))

/-- The root node a fresh tree starts from (`Node::root()`, a Directory). -/
def rootNode : RawNode :=
  RawNode.mk ⟨⟨"", [], []⟩, FileEntryType.Directory⟩ ChildMap.nil

/-! ### Basic structural lemmas -/

@[simp] theorem RawNode.data_mk (d : RawTreeNode) (cs : ChildMap) :
    (RawNode.mk d cs).data = d := rfl

@[simp] theorem RawNode.children_mk (d : RawTreeNode) (cs : ChildMap) :
    (RawNode.mk d cs).children = cs := rfl

theorem RawNode.eta : ∀ n : RawNode, RawNode.mk n.data n.children = n
  | .mk _ _ => rfl

/-- Induction over a child map alone (the mutual recursor needs both motives;
this one never descends into the nodes). -/
theorem ChildMap.myInd {motive : ChildMap → Prop} (nil : motive .nil)
    (cons : ∀ k c rest, motive rest → motive (.cons k c rest)) :
    ∀ cs : ChildMap, motive cs
  | .nil => nil
  | .cons k c rest => cons k c rest (ChildMap.myInd nil cons rest)

theorem prefix_concat_iff {l₁ l₂ : List String} {a : String} :
    l₁ <+: l₂ ++ [a] ↔ l₁ <+: l₂ ∨ l₁ = l₂ ++ [a] := by
  constructor
  · rintro ⟨s, hs⟩
    rcases List.eq_nil_or_concat s with rfl | ⟨s', b, rfl⟩
    · right; simpa using hs
    · left
      rw [List.concat_eq_append, ← List.append_assoc] at hs
      have := List.append_inj' hs rfl
      exact ⟨s', this.1⟩
  · rintro (⟨s, rfl⟩ | rfl)
    · exact ⟨s ++ [a], by simp⟩
    · exact List.prefix_refl _

theorem not_concat_self_pre {p : List String} {a : String} : ¬ (p ++ [a] <+: p) := by
  intro h
  have := h.length_le
  simp at this

/-! ### Child map lemmas -/

theorem ChildMap.find_set_self {cs : ChildMap} {k : String} {c v : RawNode}
    (h : cs.find k = some c) : (cs.set k v).find k = some v := by
  induction cs using ChildMap.myInd with
  | nil => simp [ChildMap.find] at h
  | cons k0 c0 rest ih =>
      by_cases hk : k0 = k
      · subst hk; simp [ChildMap.find, ChildMap.set]
      · simp [ChildMap.find, ChildMap.set, hk] at h ⊢
        exact ih h

theorem ChildMap.find_set_of_ne {cs : ChildMap} {k k' : String} {v : RawNode}
    (h : k' ≠ k) : (cs.set k v).find k' = cs.find k' := by
  induction cs using ChildMap.myInd with
  | nil => simp [ChildMap.set]
  | cons k0 c0 rest ih =>
      by_cases hk : k0 = k
      · subst hk
        simp [ChildMap.find, ChildMap.set, Ne.symm h, ih]
      · by_cases hk' : k0 = k'
        · subst hk'; simp [ChildMap.find, ChildMap.set, hk]
        · simp [ChildMap.find, ChildMap.set, hk, hk', ih]

theorem ChildMap.find_cons_self {k : String} {c : RawNode} {rest : ChildMap} :
    (ChildMap.cons k c rest).find k = some c := by simp [ChildMap.find]

theorem ChildMap.find_cons_of_ne {k k' : String} {c : RawNode} {rest : ChildMap}
    (h : k' ≠ k) : (ChildMap.cons k c rest).find k' = rest.find k' := by
  simp [ChildMap.find, Ne.symm h]

@[simp] theorem ChildMap.keys_set {cs : ChildMap} {k : String} {v : RawNode} :
    (cs.set k v).keys = cs.keys := by
  induction cs using ChildMap.myInd with
  | nil => rfl
  | cons k0 c0 rest ih =>
      by_cases hk : k0 = k <;> simp [ChildMap.set, ChildMap.keys, hk, ih]

theorem ChildMap.set_of_not_mem {cs : ChildMap} {k : String} {v : RawNode}
    (h : k ∉ cs.keys) : cs.set k v = cs := by
  induction cs using ChildMap.myInd with
  | nil => rfl
  | cons k0 c0 rest ih =>
      simp [ChildMap.keys] at h
      simp [ChildMap.set, Ne.symm h.1, ih h.2]

theorem ChildMap.set_self {cs : ChildMap} {k : String} {c : RawNode}
    (hnd : nodupB cs.keys = true) (h : cs.find k = some c) : cs.set k c = cs := by
  induction cs using ChildMap.myInd with
  | nil => simp [ChildMap.find] at h
  | cons k0 c0 rest ih =>
      simp [ChildMap.keys, nodupB, Bool.and_eq_true] at hnd
      by_cases hk : k0 = k
      · subst hk
        simp [ChildMap.find] at h
        subst h
        simp [ChildMap.set, ChildMap.set_of_not_mem hnd.1]
      · simp [ChildMap.find, hk] at h
        simp [ChildMap.set, hk, ih hnd.2 h]

theorem ChildMap.not_mem_of_find_none {cs : ChildMap} {k : String}
    (h : cs.find k = none) : k ∉ cs.keys := by
  induction cs using ChildMap.myInd with
  | nil => simp [ChildMap.keys]
  | cons k0 c0 rest ih =>
      by_cases hk : k0 = k
      · subst hk; simp [ChildMap.find] at h
      · simp [ChildMap.find, hk] at h
        simp [ChildMap.keys, Ne.symm hk, ih h]

theorem ChildMap.find_none_of_not_mem {cs : ChildMap} {k : String}
    (h : k ∉ cs.keys) : cs.find k = none := by
  induction cs using ChildMap.myInd with
  | nil => rfl
  | cons k0 c0 rest ih =>
      simp [ChildMap.keys] at h
      simp [ChildMap.find, Ne.symm h.1, ih h.2]

theorem ChildMap.find_removeKey_of_ne {cs : ChildMap} {k k' : String}
    (h : k' ≠ k) : (cs.removeKey k).find k' = cs.find k' := by
  induction cs using ChildMap.myInd with
  | nil => rfl
  | cons k0 c0 rest ih =>
      by_cases hk : k0 = k
      · subst hk; simp [ChildMap.removeKey, ChildMap.find, Ne.symm h]
      · by_cases hk' : k0 = k'
        · subst hk'; simp [ChildMap.removeKey, ChildMap.find, hk]
        · simp [ChildMap.removeKey, ChildMap.find, hk, hk', ih]

theorem ChildMap.not_mem_removeKey {cs : ChildMap} {k x : String}
    (h : x ∉ cs.keys) : x ∉ (cs.removeKey k).keys := by
  induction cs using ChildMap.myInd with
  | nil => simpa [ChildMap.removeKey] using h
  | cons k0 c0 rest ih =>
      simp [ChildMap.keys] at h
      by_cases hk : k0 = k
      · subst hk; simp [ChildMap.removeKey, h.2]
      · simp [ChildMap.removeKey, hk, ChildMap.keys, h.1]
        exact ih h.2

theorem ChildMap.nodup_removeKey {cs : ChildMap} {k : String}
    (h : nodupB cs.keys = true) : nodupB (cs.removeKey k).keys = true := by
  induction cs using ChildMap.myInd with
  | nil => exact h
  | cons k0 c0 rest ih =>
      simp [ChildMap.keys, nodupB, Bool.and_eq_true] at h
      by_cases hk : k0 = k
      · subst hk; simp [ChildMap.removeKey, h.2]
      · simp [ChildMap.removeKey, hk, ChildMap.keys, nodupB, Bool.and_eq_true]
        exact ⟨ChildMap.not_mem_removeKey h.1, ih h.2⟩

theorem ChildMap.find_removeKey_self {cs : ChildMap} {k : String}
    (hnd : nodupB cs.keys = true) : (cs.removeKey k).find k = none := by
  induction cs using ChildMap.myInd with
  | nil => rfl
  | cons k0 c0 rest ih =>
      simp [ChildMap.keys, nodupB, Bool.and_eq_true] at hnd
      by_cases hk : k0 = k
      · subst hk
        simpa [ChildMap.removeKey] using ChildMap.find_none_of_not_mem hnd.1
      · simp [ChildMap.removeKey, hk, ChildMap.find, hk]
        exact ih hnd.2

theorem ChildMap.removeKey_of_find_none {cs : ChildMap} {k : String}
    (h : cs.find k = none) : cs.removeKey k = cs := by
  induction cs using ChildMap.myInd with
  | nil => rfl
  | cons k0 c0 rest ih =>
      by_cases hk : k0 = k
      · subst hk; simp [ChildMap.find] at h
      · simp [ChildMap.find, hk] at h
        simp [ChildMap.removeKey, hk, ih h]

/-! ### Path lookup lemmas -/

@[simp] theorem RawNode.getPath_nil (t : RawNode) : t.getPath [] = some t := rfl

theorem RawNode.getPath_cons (d : RawTreeNode) (cs : ChildMap) (k : String)
    (ks : List String) :
    (RawNode.mk d cs).getPath (k :: ks) =
      (match cs.find k with
       | some c => c.getPath ks
       | none => none) := rfl

theorem RawNode.updAt_nil (t : RawNode) (f : RawNode → RawNode × Option RawTreeNode) :
    t.updAt [] f = some (f t) := rfl

theorem RawNode.updAt_cons (d : RawTreeNode) (cs : ChildMap) (k : String)
    (ks : List String) (f : RawNode → RawNode × Option RawTreeNode) :
    (RawNode.mk d cs).updAt (k :: ks) f =
      (match cs.find k with
       | none => none
       | some c =>
           match c.updAt ks f with
           | none => none
           | some (c2, r) => some (RawNode.mk d (cs.set k c2), r)) := rfl

theorem RawNode.getPath_append (t : RawNode) (p q : List String) :
    t.getPath (p ++ q) = (t.getPath p).bind (fun n => n.getPath q) := by
  induction p generalizing t with
  | nil => simp
  | cons k ks ih =>
      cases t with
      | mk d cs =>
          rw [List.cons_append, RawNode.getPath_cons, RawNode.getPath_cons]
          cases hf : cs.find k with
          | none => rfl
          | some c => exact ih c

theorem RawNode.getPath_isSome_mono {t : RawNode} {p q : List String}
    (hpq : p <+: q) (h : (t.getPath q).isSome) : (t.getPath p).isSome := by
  obtain ⟨s, rfl⟩ := hpq
  rw [RawNode.getPath_append] at h
  cases hp : t.getPath p with
  | none => rw [hp] at h; simp at h
  | some m => simp

/-! ### Update-at-path lemmas -/

theorem RawNode.updAt_spec : ∀ (p : List String) {t t' : RawNode}
    {f : RawNode → RawNode × Option RawTreeNode} {r : Option RawTreeNode},
    t.updAt p f = some (t', r) →
    ∃ m, t.getPath p = some m ∧ r = (f m).2 ∧
      ∀ s, t'.getPath (p ++ s) = (f m).1.getPath s
  | [], t, t', f, r, h => by
      rw [RawNode.updAt_nil] at h
      cases hft : f t with
      | mk a b =>
          rw [hft] at h
          simp only [Option.some.injEq, Prod.mk.injEq] at h
          refine ⟨t, rfl, by rw [hft, ← h.2], fun s => ?_⟩
          rw [List.nil_append, hft, ← h.1]
  | k :: ks, t, t', f, r, h => by
      cases t with
      | mk d cs =>
          rw [RawNode.updAt_cons] at h
          cases hf : cs.find k with
          | none => rw [hf] at h; simp at h
          | some c =>
              simp only [hf] at h
              cases hu : c.updAt ks f with
              | none => rw [hu] at h; simp at h
              | some pr =>
                  obtain ⟨c2, r2⟩ := pr
                  rw [hu] at h
                  simp only [Option.some.injEq, Prod.mk.injEq] at h
                  obtain ⟨ht', hr⟩ := h
                  obtain ⟨m, hm, hr2, hs⟩ := RawNode.updAt_spec ks hu
                  refine ⟨m, ?_, by rw [← hr, hr2], fun s => ?_⟩
                  · rw [RawNode.getPath_cons, hf]; exact hm
                  · rw [← ht', List.cons_append]
                    simp only [RawNode.getPath_cons, ChildMap.find_set_self hf]
                    exact hs s

theorem RawNode.updAt_isSome_of_getPath {t : RawNode} {p : List String} {m : RawNode}
    (f : RawNode → RawNode × Option RawTreeNode)
    (h : t.getPath p = some m) : (t.updAt p f).isSome := by
  induction p generalizing t with
  | nil => simp [RawNode.updAt_nil]
  | cons k ks ih =>
      cases t with
      | mk d cs =>
          rw [RawNode.getPath_cons] at h
          rw [RawNode.updAt_cons]
          cases hf : cs.find k with
          | none => rw [hf] at h; simp at h
          | some c =>
              rw [hf] at h
              have := ih (t := c) h
              simp only [hf]
              cases hu : c.updAt ks f with
              | none => rw [hu] at this; simp at this
              | some pr =>
                  obtain ⟨c2, r2⟩ := pr
                  simp

theorem RawNode.updAt_getPath_of_diverge : ∀ (p : List String) {t t' : RawNode}
    {f : RawNode → RawNode × Option RawTreeNode} {r : Option RawTreeNode},
    t.updAt p f = some (t', r) →
    ∀ q, ¬ p <+: q → ¬ q <+: p → t'.getPath q = t.getPath q
  | [], t, t', f, r, h => fun q hpq _ => absurd (List.nil_prefix) hpq
  | k :: ks, t, t', f, r, h => by
      intro q hpq hqp
      cases t with
      | mk d cs =>
          rw [RawNode.updAt_cons] at h
          cases hf : cs.find k with
          | none => rw [hf] at h; simp at h
          | some c =>
              simp only [hf] at h
              cases hu : c.updAt ks f with
              | none => rw [hu] at h; simp at h
              | some pr =>
                  obtain ⟨c2, r2⟩ := pr
                  rw [hu] at h
                  simp only [Option.some.injEq, Prod.mk.injEq] at h
                  obtain ⟨ht', _⟩ := h
                  cases q with
                  | nil => exact absurd (List.nil_prefix) hqp
                  | cons k' qs =>
                      rw [← ht']
                      by_cases hk : k' = k
                      · subst hk
                        simp only [RawNode.getPath_cons, ChildMap.find_set_self hf, hf]
                        exact RawNode.updAt_getPath_of_diverge ks hu qs
                          (fun hc => hpq (List.cons_prefix_cons.2 ⟨rfl, hc⟩))
                          (fun hc => hqp (List.cons_prefix_cons.2 ⟨rfl, hc⟩))
                      · rw [RawNode.getPath_cons, RawNode.getPath_cons,
                          ChildMap.find_set_of_ne hk]

theorem RawNode.updAt_data : ∀ (p : List String) {t t' : RawNode}
    {f : RawNode → RawNode × Option RawTreeNode} {r : Option RawTreeNode},
    (∀ m, ((f m).1).data = m.data) →
    t.updAt p f = some (t', r) → t'.data = t.data
  | [], t, t', f, r, hpres, h => by
      rw [RawNode.updAt_nil] at h
      have ht : t' = (f t).1 := by
        cases hft : f t with
        | mk a b =>
            rw [hft] at h
            simp only [Option.some.injEq, Prod.mk.injEq] at h
            exact h.1.symm
      rw [ht]; exact hpres t
  | k :: ks, t, t', f, r, hpres, h => by
      cases t with
      | mk d cs =>
          rw [RawNode.updAt_cons] at h
          cases hf : cs.find k with
          | none => rw [hf] at h; simp at h
          | some c =>
              simp only [hf] at h
              cases hu : c.updAt ks f with
              | none => rw [hu] at h; simp at h
              | some pr =>
                  obtain ⟨c2, r2⟩ := pr
                  rw [hu] at h
                  simp only [Option.some.injEq, Prod.mk.injEq] at h
                  rw [← h.1]; rfl

theorem RawNode.updAt_dataAt_pre_aux : ∀ (q : List String) (s : List String)
    {t t' : RawNode} {f : RawNode → RawNode × Option RawTreeNode}
    {r : Option RawTreeNode},
    (∀ m, ((f m).1).data = m.data) →
    t.updAt (q ++ s) f = some (t', r) →
    dataAt t' q = dataAt t q
  | [], s, t, t', f, r, hpres, h => by
      simp only [dataAt, RawNode.getPath_nil, Option.map_some']
      rw [RawNode.updAt_data ([] ++ s) hpres h]
  | k :: ks, s, t, t', f, r, hpres, h => by
      cases t with
      | mk d cs =>
          rw [List.cons_append, RawNode.updAt_cons] at h
          cases hf : cs.find k with
          | none => rw [hf] at h; simp at h
          | some c =>
              simp only [hf] at h
              cases hu : c.updAt (ks ++ s) f with
              | none => rw [hu] at h; simp at h
              | some pr =>
                  obtain ⟨c2, r2⟩ := pr
                  rw [hu] at h
                  simp only [Option.some.injEq, Prod.mk.injEq] at h
                  rw [← h.1]
                  simp only [dataAt, RawNode.getPath_cons,
                    ChildMap.find_set_self hf, hf]
                  exact RawNode.updAt_dataAt_pre_aux ks s hpres hu

theorem RawNode.updAt_dataAt_pre {t t' : RawNode} {p : List String}
    {f : RawNode → RawNode × Option RawTreeNode} {r : Option RawTreeNode}
    (hpres : ∀ m, ((f m).1).data = m.data)
    (h : t.updAt p f = some (t', r)) :
    ∀ q, q <+: p → dataAt t' q = dataAt t q := by
  intro q hq
  obtain ⟨s, rfl⟩ := hq
  exact RawNode.updAt_dataAt_pre_aux q s hpres h

/-! ### Well-formedness lemmas -/

theorem wfAt_mk (d : RawTreeNode) (cs : ChildMap) (p : List String) :
    wfAt (RawNode.mk d cs) p =
      ((d.raw.local_path = p : Bool) && nodupB cs.keys && wfChildren cs p) := by
  rw [wfAt]

theorem wfChildren_cons (k : String) (c : RawNode) (rest : ChildMap) (p : List String) :
    wfChildren (ChildMap.cons k c rest) p =
      ((c.data.raw.name = k : Bool) && wfAt c (p ++ [k]) && wfChildren rest p) := by
  rw [wfChildren]

theorem wfAt_local {t : RawNode} {p : List String} (h : wfAt t p = true) :
    t.data.raw.local_path = p := by
  cases t with
  | mk d cs =>
      rw [wfAt_mk] at h
      simp only [Bool.and_eq_true, decide_eq_true_eq] at h
      exact h.1.1

theorem wfAt_nodup {t : RawNode} {p : List String} (h : wfAt t p = true) :
    nodupB t.children.keys = true := by
  cases t with
  | mk d cs =>
      rw [wfAt_mk] at h
      simp only [Bool.and_eq_true] at h
      exact h.1.2

theorem wfAt_children {t : RawNode} {p : List String} (h : wfAt t p = true) :
    wfChildren t.children p = true := by
  cases t with
  | mk d cs =>
      rw [wfAt_mk] at h
      simp only [Bool.and_eq_true] at h
      exact h.2

theorem wfChildren_find {cs : ChildMap} {p : List String} {k : String} {c : RawNode}
    (h : wfChildren cs p = true) (hf : cs.find k = some c) :
    c.data.raw.name = k ∧ wfAt c (p ++ [k]) = true := by
  induction cs using ChildMap.myInd with
  | nil => simp [ChildMap.find] at hf
  | cons k0 c0 rest ih =>
      rw [wfChildren_cons] at h
      simp only [Bool.and_eq_true, decide_eq_true_eq] at h
      by_cases hk : k0 = k
      · subst hk
        rw [ChildMap.find_cons_self] at hf
        cases hf
        exact ⟨h.1.1, h.1.2⟩
      · rw [ChildMap.find_cons_of_ne (fun hc => hk hc.symm)] at hf
        exact ih h.2 hf

theorem wfAt_getPath {t : RawNode} {q : List String} :
    ∀ (p : List String) {m : RawNode}, wfAt t q = true → t.getPath p = some m →
      wfAt m (q ++ p) = true := by
  intro p
  induction p generalizing t q with
  | nil => intro m hw h; cases h; simpa using hw
  | cons k ks ih =>
      intro m hw h
      cases t with
      | mk d cs =>
          rw [RawNode.getPath_cons] at h
          cases hf : cs.find k with
          | none => rw [hf] at h; simp at h
          | some c =>
              rw [hf] at h
              have hc := wfChildren_find (wfAt_children hw) hf
              have := ih hc.2 h
              simpa using this

theorem getPath_local {t : RawNode} {p : List String} {m : RawNode}
    (hw : wfAt t [] = true) (h : t.getPath p = some m) :
    m.data.raw.local_path = p := by
  have := wfAt_getPath p hw h
  simpa using wfAt_local this

theorem wfChildren_set {cs : ChildMap} {p : List String} {k : String} {c2 : RawNode}
    (h : wfChildren cs p = true) (hf : (cs.find k).isSome)
    (hc2 : wfAt c2 (p ++ [k]) = true) (hn : c2.data.raw.name = k) :
    wfChildren (cs.set k c2) p = true := by
  induction cs using ChildMap.myInd with
  | nil => simp [ChildMap.find] at hf
  | cons k0 c0 rest ih =>
      rw [wfChildren_cons] at h
      simp only [Bool.and_eq_true, decide_eq_true_eq] at h
      by_cases hk : k0 = k
      · subst hk
        by_cases hmem : (rest.find k0).isSome
        · rw [ChildMap.set, if_pos rfl, wfChildren_cons]
          simp only [Bool.and_eq_true, decide_eq_true_eq]
          exact ⟨⟨hn, hc2⟩, ih h.2 hmem⟩
        · have hnone : rest.find k0 = none := by
            cases hr : rest.find k0
            · rfl
            · rw [hr] at hmem; simp at hmem
          rw [ChildMap.set, if_pos rfl, wfChildren_cons]
          simp only [Bool.and_eq_true, decide_eq_true_eq]
          rw [ChildMap.set_of_not_mem (ChildMap.not_mem_of_find_none hnone)]
          exact ⟨⟨hn, hc2⟩, h.2⟩
      · rw [ChildMap.find_cons_of_ne (fun hc => hk hc.symm)] at hf
        rw [ChildMap.set, if_neg hk, wfChildren_cons]
        simp only [Bool.and_eq_true, decide_eq_true_eq]
        exact ⟨⟨h.1.1, h.1.2⟩, ih h.2 hf⟩

theorem wfChildren_removeKey {cs : ChildMap} {p : List String} {k : String}
    (h : wfChildren cs p = true) : wfChildren (cs.removeKey k) p = true := by
  induction cs using ChildMap.myInd with
  | nil => exact h
  | cons k0 c0 rest ih =>
      rw [wfChildren_cons] at h
      simp only [Bool.and_eq_true, decide_eq_true_eq] at h
      by_cases hk : k0 = k
      · subst hk
        rw [ChildMap.removeKey, if_pos rfl]
        exact h.2
      · rw [ChildMap.removeKey, if_neg hk, wfChildren_cons]
        simp only [Bool.and_eq_true, decide_eq_true_eq]
        exact ⟨⟨h.1.1, h.1.2⟩, ih h.2⟩

theorem removeKey_node_wf {d : RawTreeNode} {cs : ChildMap} {p : List String} {k : String}
    (h : wfAt (RawNode.mk d cs) p = true) :
    wfAt (RawNode.mk d (cs.removeKey k)) p = true := by
  rw [wfAt_mk] at h ⊢
  simp only [Bool.and_eq_true] at h ⊢
  exact ⟨⟨h.1.1, ChildMap.nodup_removeKey h.1.2⟩, wfChildren_removeKey h.2⟩

theorem RawNode.updAt_wf : ∀ (p : List String) {t t' : RawNode} {q : List String}
    {f : RawNode → RawNode × Option RawTreeNode} {r : Option RawTreeNode},
    wfAt t q = true →
    t.updAt p f = some (t', r) →
    (∀ m, wfAt m (q ++ p) = true → wfAt (f m).1 (q ++ p) = true) →
    (∀ m, ((f m).1).data = m.data) →
    wfAt t' q = true
  | [], t, t', q, f, r, hw, h, hfw, _ => by
      rw [RawNode.updAt_nil] at h
      cases hft : f t with
      | mk a b =>
          rw [hft] at h
          simp only [Option.some.injEq, Prod.mk.injEq] at h
          rw [← h.1]
          have h2 := hfw t (by simpa using hw)
          rw [hft] at h2
          simpa using h2
  | k :: ks, t, t', q, f, r, hw, h, hfw, hpres => by
      cases t with
      | mk d cs =>
          rw [RawNode.updAt_cons] at h
          cases hf : cs.find k with
          | none => rw [hf] at h; simp at h
          | some c =>
              simp only [hf] at h
              cases hu : c.updAt ks f with
              | none => rw [hu] at h; simp at h
              | some pr =>
                  obtain ⟨c2, r2⟩ := pr
                  rw [hu] at h
                  simp only [Option.some.injEq, Prod.mk.injEq] at h
                  rw [← h.1]
                  have hc := wfChildren_find (wfAt_children hw) hf
                  have hassoc : (q ++ [k]) ++ ks = q ++ (k :: ks) := by simp
                  have hc2wf : wfAt c2 (q ++ [k]) = true :=
                    RawNode.updAt_wf ks hc.2 hu
                      (fun m hm => by
                        rw [hassoc] at hm
                        have := hfw m hm
                        rwa [← hassoc] at this)
                      hpres
                  have hc2name : c2.data.raw.name = k := by
                    rw [RawNode.updAt_data ks hpres hu]; exact hc.1
                  rw [wfAt_mk] at hw ⊢
                  simp only [Bool.and_eq_true] at hw ⊢
                  refine ⟨⟨hw.1.1, by simpa using hw.1.2⟩, ?_⟩
                  exact wfChildren_set hw.2 (by rw [hf]; rfl) hc2wf hc2name

/-! ### add_child characterization -/

theorem add_child_data (n : RawNode) (d : RawTreeNode) :
    ((n.add_child d true).1).data = n.data := by
  rw [RawNode.add_child]
  cases hf : n.children.find d.raw.name <;> simp

theorem add_child_snd (n : RawNode) (d : RawTreeNode) :
    (n.add_child d true).2 = (n.children.find d.raw.name).map RawNode.data := by
  rw [RawNode.add_child]
  cases hf : n.children.find d.raw.name <;> simp

theorem add_child_find_self (n : RawNode) (d : RawTreeNode) :
    ((n.add_child d true).1).children.find d.raw.name =
      some (RawNode.mk d ChildMap.nil) := by
  rw [RawNode.add_child]
  cases hf : n.children.find d.raw.name with
  | none => simp [ChildMap.find_cons_self]
  | some c => simpa using ChildMap.find_set_self hf

theorem add_child_find_ne (n : RawNode) (d : RawTreeNode) {k : String}
    (hk : k ≠ d.raw.name) :
    ((n.add_child d true).1).children.find k = n.children.find k := by
  rw [RawNode.add_child]
  cases hf : n.children.find d.raw.name with
  | none => simpa using ChildMap.find_cons_of_ne hk
  | some c => simpa using ChildMap.find_set_of_ne hk

theorem add_child_getPath_cons (n : RawNode) (d : RawTreeNode) (k : String)
    (ks : List String) :
    ((n.add_child d true).1).getPath (k :: ks) =
      (if k = d.raw.name then (RawNode.mk d ChildMap.nil).getPath ks
       else (match n.children.find k with
             | some c => c.getPath ks
             | none => none)) := by
  cases hn : (n.add_child d true).1 with
  | mk d2 cs2 =>
      rw [RawNode.getPath_cons]
      by_cases hk : k = d.raw.name
      · subst hk
        have := add_child_find_self n d
        rw [hn] at this
        simp only [RawNode.children_mk] at this
        rw [this, if_pos rfl]
      · have := add_child_find_ne n d hk
        rw [hn] at this
        simp only [RawNode.children_mk] at this
        rw [this, if_neg hk]

theorem add_child_branches (n : RawNode) (d : RawTreeNode) :
    ((n.children.find d.raw.name).isSome ∧
      (n.add_child d true).1 =
        RawNode.mk n.data (n.children.set d.raw.name (RawNode.mk d ChildMap.nil))) ∨
    (n.children.find d.raw.name = none ∧
      (n.add_child d true).1 =
        RawNode.mk n.data
          (ChildMap.cons d.raw.name (RawNode.mk d ChildMap.nil) n.children)) := by
  rw [RawNode.add_child]
  cases hf : n.children.find d.raw.name with
  | some c => left; simp
  | none => right; simp

theorem add_child_wf {n : RawNode} {d : RawTreeNode} {pos : List String}
    (hw : wfAt n pos = true) (hl : d.raw.local_path = pos ++ [d.raw.name]) :
    wfAt ((n.add_child d true).1) pos = true := by
  have hfresh : wfAt (RawNode.mk d ChildMap.nil) (pos ++ [d.raw.name]) = true := by
    rw [wfAt_mk]
    simp [hl, ChildMap.keys, nodupB, wfChildren]
  have hloc := wfAt_local hw
  have hnd := wfAt_nodup hw
  have hch := wfAt_children hw
  rcases add_child_branches n d with ⟨hf, heq⟩ | ⟨hf, heq⟩
  · rw [heq, wfAt_mk]
    simp only [Bool.and_eq_true, decide_eq_true_eq]
    exact ⟨⟨hloc, by simpa using hnd⟩, wfChildren_set hch hf hfresh rfl⟩
  · rw [heq, wfAt_mk]
    simp only [Bool.and_eq_true, decide_eq_true_eq]
    refine ⟨⟨hloc, ?_⟩, ?_⟩
    · simp only [ChildMap.keys, nodupB, Bool.and_eq_true, Bool.not_eq_true']
      constructor
      · simpa using ChildMap.not_mem_of_find_none hf
      · exact hnd
    · rw [wfChildren_cons]
      simp only [Bool.and_eq_true, decide_eq_true_eq]
      exact ⟨⟨rfl, hfresh⟩, hch⟩

/-! ### insertAux evaluation and specification -/

/-- The payload node the insert builds, per `Node::new` and entry type. -/
def builtNode (rp lp0 : List String) (nm : String) (ty : FileEntryType) : RawTreeNode :=
  ⟨⟨nm, lp0 ++ [nm],
    (match ty with
     | FileEntryType.Directory => []
     | FileEntryType.File => rp)⟩, ty⟩

theorem insertAux_eval_direct (fuel : Nat) (t : RawNode) (rp lp0 : List String)
    (nm : String) (ty : FileEntryType)
    (h : lp0 = [] ∨ (t.getPath lp0).isSome) :
    insertAux (fuel + 1) t rp (lp0 ++ [nm]) ty =
      (match t.updAt lp0 (fun m => m.add_child (builtNode rp lp0 nm ty) true) with
       | none => none
       | some (t2, r) =>
           some (t2, r.map (fun d => (d.raw.root_path, d.raw.local_path)))) := by
  rw [insertAux.eq_def]
  simp only [List.dropLast_concat]
  have hnode : (match ty with
      | FileEntryType.Directory => Node.new [] (lp0 ++ [nm])
      | FileEntryType.File => Node.new rp (lp0 ++ [nm])) =
      some (builtNode rp lp0 nm ty).raw := by
    cases ty <;> simp [Node.new, List.getLast?_concat, builtNode]
  rcases h with rfl | hsome
  · simp only [if_pos rfl]
    rw [hnode]
    have hb : (⟨(builtNode rp [] nm ty).raw, ty⟩ : RawTreeNode) = builtNode rp [] nm ty := rfl
    simp [hb]
  · rcases Option.isSome_iff_exists.1 hsome with ⟨par, hpar⟩
    by_cases hnil : lp0 = []
    · subst hnil
      simp only [if_pos rfl]
      rw [hnode]
      have hb : (⟨(builtNode rp [] nm ty).raw, ty⟩ : RawTreeNode) = builtNode rp [] nm ty := rfl
      simp [hb]
    · simp only [if_neg hnil]
      rw [hpar, hnode]
      have hb : (⟨(builtNode rp lp0 nm ty).raw, ty⟩ : RawTreeNode) = builtNode rp lp0 nm ty := rfl
      simp [hb]

theorem insertAux_eval_auto (fuel : Nat) (t : RawNode) (rp lp0 : List String)
    (nm : String) (ty : FileEntryType)
    (h1 : lp0 ≠ []) (h2 : t.getPath lp0 = none) :
    insertAux (fuel + 1) t rp (lp0 ++ [nm]) ty =
      (match insertAux fuel t [] lp0 FileEntryType.Directory with
       | some (t1, none) =>
           (match t1.updAt lp0 (fun m => m.add_child (builtNode rp lp0 nm ty) true) with
            | none => none
            | some (t2, r) =>
                some (t2, r.map (fun d => (d.raw.root_path, d.raw.local_path))))
       | some (_, some _) => none
       | none => none) := by
  rw [insertAux.eq_def]
  simp only [List.dropLast_concat, if_neg h1]
  rw [h2]
  have hnode : (match ty with
      | FileEntryType.Directory => Node.new [] (lp0 ++ [nm])
      | FileEntryType.File => Node.new rp (lp0 ++ [nm])) =
      some (builtNode rp lp0 nm ty).raw := by
    cases ty <;> simp [Node.new, List.getLast?_concat, builtNode]
  cases hrec : insertAux fuel t [] lp0 FileEntryType.Directory with
  | none => rfl
  | some pr =>
      obtain ⟨t1, r1⟩ := pr
      cases r1 with
      | none =>
          rw [hnode]
          have hb : (⟨(builtNode rp lp0 nm ty).raw, ty⟩ : RawTreeNode) = builtNode rp lp0 nm ty := rfl
          simp [hb]
      | some old => rfl

theorem insertAux_eval_auto' (fuel : Nat) (t : RawNode) (rp lp0 : List String)
    (nm : String) (ty : FileEntryType) {t1 : RawNode}
    (h1 : lp0 ≠ []) (h2 : t.getPath lp0 = none)
    (h3 : insertAux fuel t [] lp0 FileEntryType.Directory = some (t1, none)) :
    insertAux (fuel + 1) t rp (lp0 ++ [nm]) ty =
      (match t1.updAt lp0 (fun m => m.add_child (builtNode rp lp0 nm ty) true) with
       | none => none
       | some (t2, r) =>
           some (t2, r.map (fun d => (d.raw.root_path, d.raw.local_path)))) := by
  rw [insertAux_eval_auto fuel t rp lp0 nm ty h1 h2, h3]

theorem RawNode.getPath_consG (n : RawNode) (k : String) (ks : List String) :
    n.getPath (k :: ks) =
      (match n.children.find k with
       | some c => c.getPath ks
       | none => none) := by
  cases n; rfl

theorem RawNode.getPath_single (n : RawNode) (k : String) :
    n.getPath [k] = n.children.find k := by
  rw [RawNode.getPath_consG]
  cases n.children.find k <;> rfl

theorem fresh_getPath_cons (d : RawTreeNode) (k : String) (ks : List String) :
    (RawNode.mk d ChildMap.nil).getPath (k :: ks) = none := by
  rw [RawNode.getPath_cons]; rfl

theorem insertAux_spec : ∀ (fuel : Nat) (t : RawNode) (rp lp0 : List String)
    (nm : String) (ty : FileEntryType), lp0.length < fuel →
    ∃ t',
      insertAux fuel t rp (lp0 ++ [nm]) ty =
        some (t', (dataAt t (lp0 ++ [nm])).map
          (fun d => (d.raw.root_path, d.raw.local_path))) ∧
      t'.getPath (lp0 ++ [nm]) = some (RawNode.mk (builtNode rp lp0 nm ty) ChildMap.nil) ∧
      (∀ q, ¬ q <+: (lp0 ++ [nm]) → ¬ (lp0 ++ [nm]) <+: q → t'.getPath q = t.getPath q) ∧
      (∀ q, q <+: lp0 → (dataAt t q).isSome → dataAt t' q = dataAt t q) ∧
      (∀ q qn, (q ++ [qn]) <+: lp0 → dataAt t (q ++ [qn]) = none →
        dataAt t' (q ++ [qn]) = some (builtNode [] q qn FileEntryType.Directory)) ∧
      (wfAt t [] = true → wfAt t' [] = true)
  | 0, t, rp, lp0, nm, ty, hlen => absurd hlen (by simp)
  | fuel + 1, t, rp, lp0, nm, ty, hlen => by
      have hpre0 : lp0 <+: lp0 ++ [nm] := List.prefix_append lp0 [nm]
      have hpres : ∀ m : RawNode,
          ((m.add_child (builtNode rp lp0 nm ty) true).1).data = m.data :=
        fun m => add_child_data m _
      by_cases hdir : lp0 = [] ∨ (t.getPath lp0).isSome
      · -- the parent resolves already (or is the root)
        have hpar : ∃ par, t.getPath lp0 = some par := by
          rcases hdir with rfl | hs
          · exact ⟨t, rfl⟩
          · exact Option.isSome_iff_exists.1 hs
        obtain ⟨par, hpar⟩ := hpar
        rw [insertAux_eval_direct fuel t rp lp0 nm ty hdir]
        have hupd := RawNode.updAt_isSome_of_getPath
          (fun m => m.add_child (builtNode rp lp0 nm ty) true) hpar
        obtain ⟨⟨t2, r⟩, hu⟩ := Option.isSome_iff_exists.1 hupd
        rw [hu]
        obtain ⟨m, hm, hr, hs⟩ := RawNode.updAt_spec lp0 hu
        rw [hpar] at hm
        cases hm
        have hdata : dataAt t (lp0 ++ [nm]) = (par.children.find nm).map RawNode.data := by
          rw [dataAt, RawNode.getPath_append, hpar, Option.some_bind,
            RawNode.getPath_single]
        refine ⟨t2, ?_, ?_, ?_, ?_, ?_, ?_⟩
        · rw [hdata, hr, add_child_snd]
          simp [Option.map_map]
          rfl
        · rw [hs [nm], RawNode.getPath_single]
          exact add_child_find_self par _
        · intro q hq1 hq2
          by_cases hq3 : lp0 <+: q
          · obtain ⟨s, rfl⟩ := hq3
            cases s with
            | nil => exact absurd (by simp) hq1
            | cons x s' =>
                by_cases hx : x = nm
                · subst hx
                  exact absurd ((List.prefix_append_right_inj lp0).2
                    (List.cons_prefix_cons.2 ⟨rfl, List.nil_prefix⟩)) hq2
                · rw [hs (x :: s'), add_child_getPath_cons, if_neg (by
                    simpa [builtNode] using hx)]
                  rw [RawNode.getPath_append, hpar, Option.some_bind,
                    RawNode.getPath_consG]
          · have hq4 : ¬ q <+: lp0 := fun hc => hq1 (hc.trans hpre0)
            exact RawNode.updAt_getPath_of_diverge lp0 hu q hq3 hq4
        · intro q hq _
          exact RawNode.updAt_dataAt_pre hpres hu q hq
        · intro q qn hq hn
          have hsome : (t.getPath (q ++ [qn])).isSome :=
            RawNode.getPath_isSome_mono hq (by rw [hpar]; rfl)
          rw [dataAt] at hn
          cases hg : t.getPath (q ++ [qn]) with
          | none => rw [hg] at hsome; simp at hsome
          | some mm => rw [hg] at hn; simp at hn
        · intro hw
          refine RawNode.updAt_wf lp0 hw hu ?_ hpres
          intro m hm2
          refine add_child_wf (by simpa using hm2) ?_
          simp [builtNode]
      · -- the parent is absent: the source auto-creates it recursively
        push_neg at hdir
        obtain ⟨h1, h2⟩ := hdir
        have h2' : t.getPath lp0 = none := by
          cases hg : t.getPath lp0
          · rfl
          · rw [hg] at h2; simp at h2
        rcases List.eq_nil_or_concat lp0 with rfl | ⟨lp0', nm', rfl⟩
        · exact absurd rfl h1
        rw [List.concat_eq_append] at *
        have hlen' : lp0'.length < fuel := by
          have := hlen
          simp only [List.length_append, List.length_cons, List.length_nil] at this
          omega
        obtain ⟨t1, i1, i2, i3, i4, i5, i6⟩ :=
          insertAux_spec fuel t [] lp0' nm' FileEntryType.Directory hlen'
        have hdat0 : dataAt t (lp0' ++ [nm']) = none := by
          rw [dataAt, h2']; rfl
        rw [hdat0] at i1
        have i1' : insertAux fuel t [] (lp0' ++ [nm']) FileEntryType.Directory =
            some (t1, none) := by simpa using i1
        rw [insertAux_eval_auto' fuel t rp (lp0' ++ [nm']) nm ty h1 h2' i1']
        have hupd := RawNode.updAt_isSome_of_getPath
          (fun m => m.add_child (builtNode rp (lp0' ++ [nm']) nm ty) true) i2
        obtain ⟨⟨t2, r⟩, hu⟩ := Option.isSome_iff_exists.1 hupd
        rw [hu]
        obtain ⟨m, hm, hr, hs⟩ := RawNode.updAt_spec (lp0' ++ [nm']) hu
        rw [i2] at hm
        cases hm
        have hrnone : r = none := by
          rw [hr, add_child_snd]
          rfl
        subst hrnone
        have hdata : dataAt t ((lp0' ++ [nm']) ++ [nm]) = none := by
          rw [dataAt, RawNode.getPath_append, h2']
          rfl
        refine ⟨t2, ?_, ?_, ?_, ?_, ?_, ?_⟩
        · rw [hdata]
        · rw [hs [nm], RawNode.getPath_single]
          exact add_child_find_self _ _
        · intro q hq1 hq2
          by_cases hq3 : (lp0' ++ [nm']) <+: q
          · obtain ⟨s, rfl⟩ := hq3
            cases s with
            | nil => exact absurd (by simp) hq1
            | cons x s' =>
                by_cases hx : x = nm
                · subst hx
                  exact absurd ((List.prefix_append_right_inj (lp0' ++ [nm'])).2
                    (List.cons_prefix_cons.2 ⟨rfl, List.nil_prefix⟩)) hq2
                · rw [hs (x :: s'), add_child_getPath_cons, if_neg (by
                    simpa [builtNode] using hx)]
                  have : ((RawNode.mk (builtNode [] lp0' nm' FileEntryType.Directory)
                      ChildMap.nil) : RawNode).children.find x = none := rfl
                  rw [this, RawNode.getPath_append, h2']
                  rfl
          · have hq4 : ¬ q <+: lp0' ++ [nm'] := fun hc => hq1 (hc.trans hpre0)
            rw [RawNode.updAt_getPath_of_diverge (lp0' ++ [nm']) hu q hq3 hq4]
            exact i3 q hq4 hq3
        · intro q hq hqs
          rw [RawNode.updAt_dataAt_pre hpres hu q hq]
          rcases prefix_concat_iff.1 hq with hq' | rfl
          · exact i4 q hq' hqs
          · rw [dataAt, h2'] at hqs
            simp at hqs
        · intro q qn hq hn
          have hstep := RawNode.updAt_dataAt_pre hpres hu (q ++ [qn]) hq
          rw [hstep]
          rcases prefix_concat_iff.1 hq with hq' | heq
          · exact i5 q qn hq' hn
          · have hqe : q = lp0' ∧ qn = nm' := by
              have := List.append_inj' heq rfl
              exact ⟨this.1, by simpa using this.2⟩
            obtain ⟨rfl, rfl⟩ := hqe
            rw [dataAt, i2]
            rfl
        · intro hw
          refine RawNode.updAt_wf (lp0' ++ [nm']) (i6 hw) hu ?_ hpres
          intro m hm2
          refine add_child_wf (by simpa using hm2) ?_
          simp [builtNode]

/-! ### remove_path lemmas -/

/-- The child-map update `remove_path` performs at the parent node. -/
def remF (nm : String) : RawNode → RawNode × Option RawTreeNode :=
  fun m => (RawNode.mk m.data (m.children.removeKey nm),
            (m.children.find nm).map RawNode.data)

theorem remove_path_empty (t : RawNode) : remove_path t [] = none := rfl

theorem remove_path_concat (t : RawNode) (lp0 : List String) (nm : String) :
    remove_path t (lp0 ++ [nm]) =
      (match t.updAt lp0 (remF nm) with
       | none => some (t, none)
       | some (t1, r) =>
           some (t1, r.map (fun d => (d.raw.root_path, d.raw.local_path)))) := by
  rw [remove_path]
  simp only [List.getLast?_concat, List.dropLast_concat]
  rfl

theorem RawNode.updAt_id : ∀ (p : List String) {t t1 : RawNode} {q : List String}
    {f : RawNode → RawNode × Option RawTreeNode} {r : Option RawTreeNode},
    wfAt t q = true → t.updAt p f = some (t1, r) →
    (∀ m, t.getPath p = some m → (f m).1 = m) → t1 = t
  | [], t, t1, q, f, r, hw, h, hid => by
      rw [RawNode.updAt_nil] at h
      cases hft : f t with
      | mk a b =>
          rw [hft] at h
          simp only [Option.some.injEq, Prod.mk.injEq] at h
          have := hid t rfl
          rw [hft] at this
          rw [← h.1, ← this]
  | k :: ks, t, t1, q, f, r, hw, h, hid => by
      cases t with
      | mk d cs =>
          rw [RawNode.updAt_cons] at h
          cases hf : cs.find k with
          | none => rw [hf] at h; simp at h
          | some c =>
              simp only [hf] at h
              cases hu : c.updAt ks f with
              | none => rw [hu] at h; simp at h
              | some pr =>
                  obtain ⟨c2, r2⟩ := pr
                  rw [hu] at h
                  simp only [Option.some.injEq, Prod.mk.injEq] at h
                  have hcwf := (wfChildren_find (wfAt_children hw) hf).2
                  have hc2 : c2 = c :=
                    RawNode.updAt_id ks hcwf hu
                      (fun m hm => hid m (by rw [RawNode.getPath_cons, hf]; exact hm))
                  subst hc2
                  have hnd : nodupB cs.keys = true := by simpa using wfAt_nodup hw
                  rw [← h.1, ChildMap.set_self hnd hf]

theorem remove_path_absent {t : RawNode} {lp : List String}
    (hw : wfAt t [] = true) (h1 : lp ≠ []) (h2 : t.getPath lp = none) :
    remove_path t lp = some (t, none) := by
  rcases List.eq_nil_or_concat lp with rfl | ⟨lp0, nm, rfl⟩
  · exact absurd rfl h1
  rw [List.concat_eq_append] at *
  rw [remove_path_concat]
  cases hu : t.updAt lp0 (remF nm) with
  | none => rfl
  | some pr =>
      obtain ⟨t1, r⟩ := pr
      obtain ⟨m, hm, hr, hs⟩ := RawNode.updAt_spec lp0 hu
      have hfind : m.children.find nm = none := by
        rw [RawNode.getPath_append, hm, Option.some_bind, RawNode.getPath_single] at h2
        exact h2
      have hrnone : r = none := by
        rw [hr]
        simp [remF, hfind]
      subst hrnone
      have hid : t1 = t := RawNode.updAt_id lp0 hw hu (fun m' hm' => by
        rw [hm] at hm'
        cases hm'
        simp only [remF, ChildMap.removeKey_of_find_none hfind]
        exact RawNode.eta m)
      rw [hid]
      rfl

theorem remove_path_present {t : RawNode} {lp0 : List String} {nm : String}
    {mnode : RawNode}
    (hw : wfAt t [] = true) (h : t.getPath (lp0 ++ [nm]) = some mnode) :
    ∃ t1,
      remove_path t (lp0 ++ [nm]) =
        some (t1, some (mnode.data.raw.root_path, mnode.data.raw.local_path)) ∧
      (∀ q, ¬ (lp0 ++ [nm]) <+: q → dataAt t1 q = dataAt t q) ∧
      (∀ q, (lp0 ++ [nm]) <+: q → t1.getPath q = none) ∧
      wfAt t1 [] = true := by
  have hpar : ∃ par, t.getPath lp0 = some par := by
    have := RawNode.getPath_isSome_mono (List.prefix_append lp0 [nm]) (by rw [h]; rfl)
    exact Option.isSome_iff_exists.1 this
  obtain ⟨par, hpar⟩ := hpar
  have hfind : par.children.find nm = some mnode := by
    rw [RawNode.getPath_append, hpar, Option.some_bind, RawNode.getPath_single] at h
    exact h
  have hparwf : wfAt par lp0 = true := by simpa using wfAt_getPath lp0 hw hpar
  have hpres : ∀ m : RawNode, ((remF nm m).1).data = m.data := fun m => rfl
  have hupd := RawNode.updAt_isSome_of_getPath (remF nm) hpar
  obtain ⟨⟨t1, r⟩, hu⟩ := Option.isSome_iff_exists.1 hupd
  obtain ⟨m, hm, hr, hs⟩ := RawNode.updAt_spec lp0 hu
  rw [hpar] at hm
  cases hm
  have hrv : r = some mnode.data := by rw [hr]; simp [remF, hfind]
  subst hrv
  refine ⟨t1, ?_, ?_, ?_, ?_⟩
  · rw [remove_path_concat, hu]
    rfl
  · intro q hq
    by_cases hc1 : lp0 <+: q
    · obtain ⟨s, rfl⟩ := hc1
      cases s with
      | nil =>
          have h1 := hs []
          rw [List.append_nil] at h1 ⊢
          rw [dataAt, dataAt, hpar, h1]
          rfl
      | cons x s' =>
          have hx : x ≠ nm := by
            rintro rfl
            exact hq ((List.prefix_append_right_inj lp0).2
              (List.cons_prefix_cons.2 ⟨rfl, List.nil_prefix⟩))
          rw [dataAt, dataAt, hs (x :: s'), RawNode.getPath_append, hpar,
            Option.some_bind, RawNode.getPath_consG, RawNode.getPath_consG]
          simp only [remF, RawNode.children_mk,
            ChildMap.find_removeKey_of_ne hx]
    · by_cases hc2 : q <+: lp0
      · exact RawNode.updAt_dataAt_pre hpres hu q hc2
      · rw [dataAt, dataAt, RawNode.updAt_getPath_of_diverge lp0 hu q hc1 hc2]
  · intro q hq
    obtain ⟨s, rfl⟩ := hq
    have : lp0 ++ [nm] ++ s = lp0 ++ (nm :: s) := by simp
    rw [this, hs (nm :: s), RawNode.getPath_consG]
    simp only [remF, RawNode.children_mk,
      ChildMap.find_removeKey_self (wfAt_nodup hparwf)]
  · refine RawNode.updAt_wf lp0 hw hu ?_ hpres
    intro m hm2
    cases m with
    | mk md mcs => exact removeKey_node_wf (by simpa using hm2)

/-! ### Walk lemmas -/

theorem walkAll_mk (d : RawTreeNode) (cs : ChildMap) :
    walkAll (RawNode.mk d cs) = walkChildren cs := by rw [walkAll]

theorem walkChildren_nil : walkChildren ChildMap.nil = [] := by rw [walkChildren]

theorem walkChildren_cons (k : String) (c : RawNode) (rest : ChildMap) :
    walkChildren (ChildMap.cons k c rest) =
      (c.data :: walkAll c) ++ walkChildren rest := by rw [walkChildren]

theorem ChildMap.mem_keys_of_find {cs : ChildMap} {k : String} {c : RawNode}
    (h : cs.find k = some c) : k ∈ cs.keys := by
  by_cases hm : k ∈ cs.keys
  · exact hm
  · rw [ChildMap.find_none_of_not_mem hm] at h
    simp at h

theorem mem_walkChildren_of_find {cs : ChildMap} {k : String} {c : RawNode}
    (h : cs.find k = some c) : c.data ∈ walkChildren cs := by
  induction cs using ChildMap.myInd with
  | nil => simp [ChildMap.find] at h
  | cons k0 c0 rest ih =>
      rw [walkChildren_cons]
      by_cases hk : k0 = k
      · subst hk
        rw [ChildMap.find_cons_self] at h
        cases h
        simp
      · rw [ChildMap.find_cons_of_ne (fun hc => hk hc.symm)] at h
        simp only [List.mem_append, List.mem_cons]
        exact Or.inr (ih h)

theorem walkAll_sub_of_find {cs : ChildMap} {k : String} {c : RawNode}
    (h : cs.find k = some c) : ∀ d ∈ walkAll c, d ∈ walkChildren cs := by
  induction cs using ChildMap.myInd with
  | nil => simp [ChildMap.find] at h
  | cons k0 c0 rest ih =>
      intro d hd
      rw [walkChildren_cons]
      by_cases hk : k0 = k
      · subst hk
        rw [ChildMap.find_cons_self] at h
        cases h
        simp [hd]
      · rw [ChildMap.find_cons_of_ne (fun hc => hk hc.symm)] at h
        simp only [List.mem_append, List.mem_cons]
        exact Or.inr (ih h d hd)

theorem path_to_walk : ∀ (p : List String) {t m : RawNode},
    t.getPath p = some m → p ≠ [] → m.data ∈ walkAll t
  | [], t, m, _, hne => absurd rfl hne
  | k :: ks, t, m, h, _ => by
      cases t with
      | mk d cs =>
          rw [RawNode.getPath_cons] at h
          cases hf : cs.find k with
          | none => rw [hf] at h; simp at h
          | some c =>
              simp only [hf] at h
              rw [walkAll_mk]
              cases ks with
              | nil =>
                  rw [RawNode.getPath_nil] at h
                  cases h
                  exact mem_walkChildren_of_find hf
              | cons k1 ks1 =>
                  have hm := path_to_walk (k1 :: ks1) h (by simp)
                  exact walkAll_sub_of_find hf m.data hm

mutual
theorem walk_to_path : ∀ (t : RawNode) (q : List String) (d : RawTreeNode),
    wfAt t q = true → d ∈ walkAll t →
    ∃ p m, p ≠ [] ∧ t.getPath p = some m ∧ m.data = d ∧
      d.raw.local_path = q ++ p
  | .mk dd cs, q, d, hw, hmem => by
      rw [walkAll_mk] at hmem
      obtain ⟨k, c, sfx, m, hfind, hget, hdata, hlocal⟩ :=
        walkC_to_path cs q d (wfAt_children hw) (wfAt_nodup hw) hmem
      exact ⟨k :: sfx, m, by simp, by rw [RawNode.getPath_cons, hfind]; exact hget,
        hdata, hlocal⟩

theorem walkC_to_path : ∀ (cs : ChildMap) (q : List String) (d : RawTreeNode),
    wfChildren cs q = true → nodupB cs.keys = true → d ∈ walkChildren cs →
    ∃ k c sfx m, cs.find k = some c ∧ c.getPath sfx = some m ∧ m.data = d ∧
      d.raw.local_path = q ++ (k :: sfx)
  | .nil, q, d, _, _, hmem => by rw [walkChildren_nil] at hmem; simp at hmem
  | .cons k0 c0 rest, q, d, hw, hnd, hmem => by
      rw [wfChildren_cons] at hw
      simp only [Bool.and_eq_true, decide_eq_true_eq] at hw
      simp only [ChildMap.keys, nodupB, Bool.and_eq_true, Bool.not_eq_true'] at hnd
      rw [walkChildren_cons] at hmem
      simp only [List.mem_append, List.mem_cons] at hmem
      rcases hmem with (rfl | hin) | hrest
      · refine ⟨k0, c0, [], c0, ChildMap.find_cons_self, rfl, rfl, ?_⟩
        have := wfAt_local hw.1.2
        simpa using this
      · obtain ⟨p, m, hp, hget, hdata, hlocal⟩ :=
          walk_to_path c0 (q ++ [k0]) d hw.1.2 hin
        exact ⟨k0, c0, p, m, ChildMap.find_cons_self, hget, hdata, by
          rw [hlocal]; simp⟩
      · obtain ⟨k, c, sfx, m, hfind, hget, hdata, hlocal⟩ :=
          walkC_to_path rest q d hw.2 hnd.2 hrest
        have hk : k ≠ k0 := by
          rintro rfl
          exact absurd (ChildMap.mem_keys_of_find hfind) (by simpa using hnd.1)
        exact ⟨k, c, sfx, m, by rw [ChildMap.find_cons_of_ne hk]; exact hfind,
          hget, hdata, hlocal⟩
end

theorem walkAll_local {t : RawNode} {q : List String} {d : RawTreeNode}
    (hw : wfAt t q = true) (hmem : d ∈ walkAll t) :
    ∃ p, p ≠ [] ∧ d.raw.local_path = q ++ p := by
  obtain ⟨p, m, hp, _, _, hlocal⟩ := walk_to_path t q d hw hmem
  exact ⟨p, hp, hlocal⟩

theorem not_append_pre {p s : List String} (hs : s ≠ []) : ¬ (p ++ s <+: p) := by
  intro h
  have := h.length_le
  simp only [List.length_append] at this
  have : s.length = 0 := by omega
  exact hs (List.length_eq_zero.1 this)

theorem mem_walkChildren_local {cs : ChildMap} {q : List String} {d : RawTreeNode}
    (hw : wfChildren cs q = true) (hmem : d ∈ walkChildren cs) :
    ∃ k sfx, k ∈ cs.keys ∧ d.raw.local_path = q ++ (k :: sfx) := by
  induction cs using ChildMap.myInd with
  | nil => rw [walkChildren_nil] at hmem; simp at hmem
  | cons k0 c0 rest ih =>
      rw [wfChildren_cons] at hw
      simp only [Bool.and_eq_true, decide_eq_true_eq] at hw
      rw [walkChildren_cons] at hmem
      simp only [List.mem_append, List.mem_cons] at hmem
      rcases hmem with (rfl | hin) | hrest
      · exact ⟨k0, [], by simp [ChildMap.keys], by simpa using wfAt_local hw.1.2⟩
      · obtain ⟨p, hp, hl⟩ := walkAll_local hw.1.2 hin
        exact ⟨k0, p, by simp [ChildMap.keys], by rw [hl]; simp⟩
      · obtain ⟨k, sfx, hk, hl⟩ := ih hw.2 hrest
        exact ⟨k, sfx, by simp [ChildMap.keys, hk], hl⟩

mutual
theorem walk_pairwise : ∀ (t : RawNode) (q : List String), wfAt t q = true →
    List.Pairwise (fun a b : RawTreeNode =>
      ¬ (b.raw.local_path <+: a.raw.local_path)) (walkAll t)
  | .mk dd cs, q, hw => by
      rw [walkAll_mk]
      exact walkC_pairwise cs q (wfAt_children hw) (wfAt_nodup hw)

theorem walkC_pairwise : ∀ (cs : ChildMap) (q : List String),
    wfChildren cs q = true → nodupB cs.keys = true →
    List.Pairwise (fun a b : RawTreeNode =>
      ¬ (b.raw.local_path <+: a.raw.local_path)) (walkChildren cs)
  | .nil, q, _, _ => by rw [walkChildren_nil]; exact List.Pairwise.nil
  | .cons k0 c0 rest, q, hw, hnd => by
      rw [wfChildren_cons] at hw
      simp only [Bool.and_eq_true, decide_eq_true_eq] at hw
      simp only [ChildMap.keys, nodupB, Bool.and_eq_true, Bool.not_eq_true'] at hnd
      rw [walkChildren_cons, List.pairwise_append]
      have hc0loc : c0.data.raw.local_path = q ++ [k0] := wfAt_local hw.1.2
      have hblock : ∀ a, a = c0.data ∨ a ∈ walkAll c0 →
          ∃ sfx, a.raw.local_path = q ++ (k0 :: sfx) := by
        rintro a (rfl | hin)
        · exact ⟨[], by simpa using hc0loc⟩
        · obtain ⟨p, hp, hl⟩ := walkAll_local hw.1.2 hin
          exact ⟨p, by rw [hl]; simp⟩
      refine ⟨?_, walkC_pairwise rest q hw.2 hnd.2, ?_⟩
      · rw [List.pairwise_cons]
        refine ⟨?_, walk_pairwise c0 (q ++ [k0]) hw.1.2⟩
        intro b hb
        obtain ⟨p, hp, hl⟩ := walkAll_local hw.1.2 hb
        rw [hl, hc0loc]
        exact not_append_pre hp
      · intro a ha b hb
        obtain ⟨sfxa, hla⟩ := hblock a (by simpa using ha)
        obtain ⟨k, sfxb, hk, hlb⟩ := mem_walkChildren_local hw.2 hb
        rw [hla, hlb]
        intro hcon
        have := (List.prefix_append_right_inj q).1 hcon
        have hkk := (List.cons_prefix_cons.1 this).1
        subst hkk
        exact absurd hk (by simpa using hnd.1)
end

/-! ### remove_paths_by_root: the fold over collected paths -/

theorem dataAt_isSome (t : RawNode) (q : List String) :
    (dataAt t q).isSome = (t.getPath q).isSome := by
  rw [dataAt]; cases t.getPath q <;> rfl

theorem dataAt_eq_none_iff (t : RawNode) (q : List String) :
    dataAt t q = none ↔ t.getPath q = none := by
  rw [dataAt]; cases t.getPath q <;> simp

theorem rpbrFold_cons (t : RawNode) (lp : List String) (rest : List (List String)) :
    rpbrFold t (lp :: rest) =
      (match remove_path t lp with
       | none => none
       | some (t1, r) =>
           match rpbrFold t1 rest with
           | none => none
           | some (t2, acc) =>
               some (t2, (match r with
                          | some (_, loc) => [loc]
                          | none => []) ++ acc)) := by
  rw [rpbrFold]

/-- Whether the fold keeps a collected path: its node is still present when
its turn comes, i.e. no collected path strictly above it was removed first. -/
def keepB (t : RawNode) (L : List (List String)) (lp : List String) : Bool :=
  (t.getPath lp).isSome &&
    !(L.any (fun lp' =>
      !(decide (lp' = lp)) && decide (lp' <+: lp) && (t.getPath lp').isSome))

theorem keepB_iff (t : RawNode) (L : List (List String)) (q : List String) :
    keepB t L q = true ↔
      ((t.getPath q).isSome = true ∧
        ∀ x ∈ L, x ≠ q → x <+: q → ¬ ((t.getPath x).isSome = true)) := by
  rw [keepB]
  simp only [Bool.and_eq_true, Bool.not_eq_true', List.any_eq_false,
    decide_eq_true_eq, Bool.not_eq_true]
  constructor
  · rintro ⟨h1, h2⟩
    refine ⟨h1, fun x hx hne hpre => ?_⟩
    have h3 := h2 x hx
    by_cases hs : (t.getPath x).isSome = true
    · exact absurd ⟨⟨by simpa using hne, hpre⟩, hs⟩ h3
    · simpa using hs
  · rintro ⟨h1, h2⟩
    refine ⟨h1, fun x hx => ?_⟩
    rintro ⟨⟨he, hpre⟩, hs⟩
    have := h2 x hx (by simpa using he) hpre
    rw [this] at hs
    exact Bool.false_ne_true hs

theorem rpbrFold_eval_present {t t1 t2 : RawNode} {lp : List String}
    {rt loc : List String} {rest : List (List String)} {acc : List (List String)}
    (h1 : remove_path t lp = some (t1, some (rt, loc)))
    (h2 : rpbrFold t1 rest = some (t2, acc)) :
    rpbrFold t (lp :: rest) = some (t2, loc :: acc) := by
  rw [rpbrFold_cons, h1]
  show (match rpbrFold t1 rest with
        | none => none
        | some (t2, acc) => some (t2, [loc] ++ acc)) = some (t2, loc :: acc)
  rw [h2]
  rfl

theorem rpbrFold_eval_absent {t t1 t2 : RawNode} {lp : List String}
    {rest : List (List String)} {acc : List (List String)}
    (h1 : remove_path t lp = some (t1, none))
    (h2 : rpbrFold t1 rest = some (t2, acc)) :
    rpbrFold t (lp :: rest) = some (t2, acc) := by
  rw [rpbrFold_cons, h1]
  show (match rpbrFold t1 rest with
        | none => none
        | some (t2, acc) => some (t2, [] ++ acc)) = some (t2, acc)
  rw [h2]
  rfl

theorem rpbrFold_spec : ∀ (L : List (List String)) (t : RawNode),
    wfAt t [] = true → (∀ lp ∈ L, lp ≠ []) →
    List.Pairwise (fun a b => ¬ (b <+: a)) L →
    ∃ t', rpbrFold t L = some (t', L.filter (keepB t L)) ∧
      wfAt t' [] = true ∧
      (∀ q lp, lp ∈ L → (t.getPath lp).isSome → lp <+: q → t'.getPath q = none) ∧
      (∀ q, (∀ lp ∈ L, (t.getPath lp).isSome → ¬ lp <+: q) → dataAt t' q = dataAt t q)
  | [], t, hw, _, _ => by
      refine ⟨t, by rw [rpbrFold]; rfl, hw, ?_, ?_⟩
      · intro q lp hlp; simp at hlp
      · intro q _; rfl
  | lp :: rest, t, hw, hne, hpw => by
      rw [List.pairwise_cons] at hpw
      obtain ⟨hP1, hPrest⟩ := hpw
      have hlpne := hne lp (by simp)
      have hq_ne_lp : ∀ q ∈ rest, q ≠ lp := by
        intro q hq rfl_eq
        exact hP1 q hq (rfl_eq ▸ List.prefix_refl _)
      have hnerest : ∀ x ∈ rest, x ≠ [] := fun x hx => hne x (by simp [hx])
      by_cases hpres : (t.getPath lp).isSome
      · obtain ⟨mnode, hm⟩ := Option.isSome_iff_exists.1 hpres
        rcases List.eq_nil_or_concat lp with rfl | ⟨lp0, nm, hconcat⟩
        · exact absurd rfl hlpne
        rw [List.concat_eq_append] at hconcat
        subst hconcat
        obtain ⟨t1, hrem, hoth, hgone, hwf1⟩ := remove_path_present hw hm
        have hloc : mnode.data.raw.local_path = lp0 ++ [nm] := getPath_local hw hm
        have htrans : ∀ q, (t1.getPath q).isSome = true ↔
            ((t.getPath q).isSome = true ∧ ¬ (lp0 ++ [nm]) <+: q) := by
          intro q
          constructor
          · intro hs
            by_cases hc : (lp0 ++ [nm]) <+: q
            · rw [hgone q hc] at hs; simp at hs
            · have := hoth q hc
              rw [← dataAt_isSome, this, dataAt_isSome] at hs
              exact ⟨hs, hc⟩
          · rintro ⟨hs, hc⟩
            have := hoth q hc
            rw [← dataAt_isSome, this, dataAt_isSome]
            exact hs
        obtain ⟨t2, hfold, hwf2, hc1, hd1⟩ := rpbrFold_spec rest t1 hwf1 hnerest hPrest
        have hdead : ∀ q, (lp0 ++ [nm]) <+: q → t2.getPath q = none := by
          intro q hcq
          by_cases hex : ∃ x ∈ rest, (t1.getPath x).isSome = true ∧ x <+: q
          · obtain ⟨x, hx, hxs, hxp⟩ := hex
            exact hc1 q x hx hxs hxp
          · push_neg at hex
            have := hd1 q (fun x hx hxs => hex x hx hxs)
            have hnone : dataAt t1 q = none := by
              rw [dataAt_eq_none_iff]
              exact hgone q hcq
            rw [hnone] at this
            exact (dataAt_eq_none_iff t2 q).1 this
        refine ⟨t2, ?_, hwf2, ?_, ?_⟩
        · rw [rpbrFold_eval_present hrem hfold, hloc]
          have hhead : keepB t ((lp0 ++ [nm]) :: rest) (lp0 ++ [nm]) = true := by
            rw [keepB_iff]
            refine ⟨hpres, fun x hx hne2 hpre2 _ => ?_⟩
            rcases List.mem_cons.1 hx with rfl | hxr
            · exact hne2 rfl
            · exact hP1 x hxr hpre2
          have htail : rest.filter (keepB t1 rest) =
              rest.filter (keepB t ((lp0 ++ [nm]) :: rest)) := by
            apply List.filter_congr
            intro q hq
            have hqlp := hq_ne_lp q hq
            rw [Bool.eq_iff_iff, keepB_iff, keepB_iff]
            constructor
            · rintro ⟨h1, h2⟩
              obtain ⟨h1', hc⟩ := (htrans q).1 h1
              refine ⟨h1', fun x hx hne2 hpre2 hs => ?_⟩
              rcases List.mem_cons.1 hx with rfl | hxr
              · exact hc hpre2
              · by_cases hcx : (lp0 ++ [nm]) <+: x
                · exact hc (hcx.trans hpre2)
                · exact h2 x hxr hne2 hpre2 ((htrans x).2 ⟨hs, hcx⟩)
            · rintro ⟨h1, h2⟩
              have hc : ¬ (lp0 ++ [nm]) <+: q := by
                intro hcq
                exact h2 (lp0 ++ [nm]) (by simp) (fun he => hqlp he.symm) hcq hpres
              refine ⟨(htrans q).2 ⟨h1, hc⟩, fun x hx hne2 hpre2 hs => ?_⟩
              have hx' := (htrans x).1 hs
              exact h2 x (by simp [hx]) hne2 hpre2 hx'.1
          rw [htail]
          have hfc : List.filter (keepB t ((lp0 ++ [nm]) :: rest)) ((lp0 ++ [nm]) :: rest) =
              (lp0 ++ [nm]) :: List.filter (keepB t ((lp0 ++ [nm]) :: rest)) rest := by
            rw [List.filter_cons, if_pos (by rw [hhead])]
          rw [hfc]
        · intro q lp' hlp' hs hpre
          rcases List.mem_cons.1 hlp' with rfl | hxr
          · exact hdead q hpre
          · by_cases hcx : (lp0 ++ [nm]) <+: lp'
            · exact hdead q (hcx.trans hpre)
            · exact hc1 q lp' hxr ((htrans lp').2 ⟨hs, hcx⟩) hpre
        · intro q hq
          have hclp : ¬ (lp0 ++ [nm]) <+: q := hq (lp0 ++ [nm]) (by simp) hpres
          have h1 := hoth q hclp
          have h2 := hd1 q (fun x hx hxs =>
            hq x (by simp [hx]) ((htrans x).1 hxs).1)
          rw [h2, h1]
      · have hnone : t.getPath lp = none := by
          cases hg : t.getPath lp
          · rfl
          · rw [hg] at hpres; simp at hpres
        have hrem := remove_path_absent hw hlpne hnone
        obtain ⟨t2, hfold, hwf2, hc1, hd1⟩ := rpbrFold_spec rest t hw hnerest hPrest
        refine ⟨t2, ?_, hwf2, ?_, ?_⟩
        · rw [rpbrFold_eval_absent hrem hfold]
          have hhead : keepB t (lp :: rest) lp = false := by
            rw [keepB]
            simp only [Bool.and_eq_false_iff]
            left
            rw [hnone]
            rfl
          have htail : rest.filter (keepB t rest) =
              rest.filter (keepB t (lp :: rest)) := by
            apply List.filter_congr
            intro q hq
            rw [Bool.eq_iff_iff, keepB_iff, keepB_iff]
            constructor
            · rintro ⟨h1, h2⟩
              refine ⟨h1, fun x hx hne2 hpre2 hs => ?_⟩
              rcases List.mem_cons.1 hx with rfl | hxr
              · rw [hnone] at hs; simp at hs
              · exact h2 x hxr hne2 hpre2 hs
            · rintro ⟨h1, h2⟩
              exact ⟨h1, fun x hx hne2 hpre2 hs => h2 x (by simp [hx]) hne2 hpre2 hs⟩
          rw [htail]
          have hfc : List.filter (keepB t (lp :: rest)) (lp :: rest) =
              List.filter (keepB t (lp :: rest)) rest := by
            rw [List.filter_cons, if_neg (by rw [hhead]; simp)]
          rw [hfc]
        · intro q lp' hlp' hs hpre
          rcases List.mem_cons.1 hlp' with rfl | hxr
          · rw [hnone] at hs; simp at hs
          · exact hc1 q lp' hxr hs hpre
        · intro q hq
          exact hd1 q (fun x hx hxs => hq x (by simp [hx]) hxs)

/-- The local paths of every entry bound to a root, in walk (pre-)order. -/
def rootLocals (t : RawNode) (root : List String) : List (List String) :=
  ((walkAll t).filter (fun d => d.raw.root_path = root)).map
    (fun d => d.raw.local_path)

/-- The members of a path list that are not strict extensions of another
member: the top-level paths. -/
def topLevel (M : List (List String)) : List (List String) :=
  M.filter (fun lp =>
    !(M.any (fun lp' => !(decide (lp' = lp)) && decide (lp' <+: lp))))

theorem remove_paths_by_root_spec (t : RawNode) (root : List String)
    (hw : wfAt t [] = true) :
    ∃ t' res, remove_paths_by_root t root = some (t', res) ∧
      wfAt t' [] = true ∧
      (∀ d ∈ walkAll t', d.raw.root_path ≠ root) ∧
      res = topLevel (rootLocals t root) := by
  have hMmem : ∀ lp ∈ rootLocals t root, ∃ d ∈ walkAll t,
      d.raw.root_path = root ∧ d.raw.local_path = lp := by
    intro lp hlp
    rw [rootLocals, List.mem_map] at hlp
    obtain ⟨d, hd, hdl⟩ := hlp
    rw [List.mem_filter] at hd
    exact ⟨d, hd.1, by simpa using hd.2, hdl⟩
  have hMne : ∀ lp ∈ rootLocals t root, lp ≠ [] := by
    intro lp hlp
    obtain ⟨d, hd, _, hdl⟩ := hMmem lp hlp
    obtain ⟨p, hp, hl⟩ := walkAll_local hw hd
    rw [← hdl, hl]
    simpa using hp
  have hMpres : ∀ lp ∈ rootLocals t root, (t.getPath lp).isSome = true := by
    intro lp hlp
    obtain ⟨d, hd, _, hdl⟩ := hMmem lp hlp
    obtain ⟨p, m, hp, hget, _, hl⟩ := walk_to_path t [] d hw hd
    rw [← hdl, hl]
    simp only [List.nil_append]
    rw [hget]
    rfl
  have hMpw : List.Pairwise (fun a b => ¬ (b <+: a)) (rootLocals t root) := by
    rw [rootLocals, List.pairwise_map]
    exact List.Pairwise.sublist (List.filter_sublist _) (walk_pairwise t [] hw)
  obtain ⟨t', hfold, hwf', hc, hd⟩ :=
    rpbrFold_spec (rootLocals t root) t hw hMne hMpw
  refine ⟨t', (rootLocals t root).filter (keepB t (rootLocals t root)), ?_, hwf', ?_, ?_⟩
  · rw [remove_paths_by_root]
    exact hfold
  · intro d hd2 hroot
    obtain ⟨p, m, hp, hget', hdata, hlocal⟩ := walk_to_path t' [] d hwf' hd2
    rw [List.nil_append] at hlocal
    by_cases hex : ∃ lp ∈ rootLocals t root, (t.getPath lp).isSome = true ∧ lp <+: p
    · obtain ⟨lp, hlp, hs, hpre⟩ := hex
      rw [hc p lp hlp hs hpre] at hget'
      simp at hget'
    · push_neg at hex
      have hda := hd p (fun lp hlp hs => hex lp hlp hs)
      have hda' : dataAt t' p = some d := by
        rw [dataAt, hget', Option.map_some']
        rw [hdata]
      rw [hda] at hda'
      obtain ⟨m2, hget2, hdata2⟩ : ∃ m2, t.getPath p = some m2 ∧ m2.data = d := by
        rw [dataAt] at hda'
        cases hg : t.getPath p with
        | none => rw [hg] at hda'; simp at hda'
        | some mm => rw [hg] at hda'; simp at hda'; exact ⟨mm, rfl, hda'⟩
      have hdmem : d ∈ walkAll t := by
        rw [← hdata2]
        exact path_to_walk p hget2 hp
      have hpM : p ∈ rootLocals t root := by
        rw [rootLocals, List.mem_map]
        refine ⟨d, ?_, hlocal⟩
        rw [List.mem_filter]
        exact ⟨hdmem, by simpa using hroot⟩
      exact hex p hpM (by rw [hget2]; rfl) (List.prefix_refl p)
  · apply List.filter_congr
    intro lp hlp
    rw [Bool.eq_iff_iff, keepB_iff]
    simp only [Bool.not_eq_true', List.any_eq_false, Bool.and_eq_true,
      Bool.not_eq_true, decide_eq_true_eq, decide_eq_false_iff_not]
    constructor
    · rintro ⟨_, h2⟩
      intro x hx
      rintro ⟨hne, hpre⟩
      have h3 := hMpres x hx
      rw [h2 x hx hne hpre] at h3
      exact Bool.false_ne_true h3
    · intro h2
      refine ⟨hMpres lp hlp, fun x hx hne hpre => ?_⟩
      exact absurd ⟨hne, hpre⟩ (h2 x hx)

/-! ### Loader, Tree and Orbit (src/loader.rs, src/tree.rs, src/orbit.rs) -/

/-- Mirror of the `FileLoader` trait (src/loader.rs): bytes are `List Nat`,
the error type is a parameter. -/
structure FileLoader (ε : Type) where
  path_exists : List String → List String → Bool
  get_file_size : List String → List String → Option Nat
  get_path_type : List String → List String → Except ε FileEntryType
  load_path : List String → List String → Except ε (List Nat)
  get_actual_path : List String → List String → Option (List String)

/-- Mirror of `Tree<L>` (src/tree.rs lines 130-133): a loader and a root node.
Named `FsTree` because Lean's library already owns the name `Tree`. -/
structure FsTree (ε : Type) where
  loader : FileLoader ε
  root : RawNode

/-- Mirror of `Tree::new` (src/tree.rs lines 173-178). -/
def FsTree.new {ε : Type} (loader : FileLoader ε) : FsTree ε :=
  ⟨loader, rootNode⟩

/-- Mirror of `Tree::load` (src/tree.rs lines 182-193): a path found in the
trie delegates to the loader with the node's stored roots; a path NOT in the
trie still consults the loader with an empty root path, returning its bytes on
success and `Ok(None)` on error. -/
def FsTree.load {ε : Type} (tr : FsTree ε) (path : List String) :
    Except ε (Option (List Nat)) :=
  match tr.root.getPath path with
  | some node =>
      (tr.loader.load_path node.data.raw.root_path node.data.raw.local_path).map some
  | none =>
      match tr.loader.load_path [] path with
      | Except.ok data => Except.ok (some data)
      | Except.error _ => Except.ok none

/-- Mirror of `Tree::query_filesize` (src/tree.rs lines 368-374). -/
def FsTree.query_filesize {ε : Type} (tr : FsTree ε) (path : List String) : Option Nat :=
  match tr.root.getPath path with
  | some node => tr.loader.get_file_size node.data.raw.root_path node.data.raw.local_path
  | none => none

/-- Mirror of `Orbit<A, B, C>` (src/orbit.rs lines 191-195). -/
structure Orbit (α β γ : Type) where
  physical : FsTree α
  patch : FsTree β
  virt : FsTree γ

/-- Mirror of `orbit::Error<A, B, C>` (src/orbit.rs lines 198-203). -/
inductive OrbitError (α β γ : Type) where
  | Physical (e : α)
  | Patch (e : β)
  | Virtual (e : γ)

/-- Outcome of `Orbit::load`: bytes, a tagged loader error, or the fatal
`expect("Physical loader did not return valid file data!")` abort. -/
inductive LoadOutcome (α β γ : Type) where
  | ok (data : List Nat)
  | err (e : OrbitError α β γ)
  | fatal

/-- Mirror of `Orbit::load_physical` (src/orbit.rs lines 230-236). -/
def Orbit.load_physical {α β γ : Type} (o : Orbit α β γ) (path : List String) :
    LoadOutcome α β γ :=
  match o.physical.load path with
  | Except.ok (some data) => LoadOutcome.ok data
  | Except.ok none => LoadOutcome.fatal
  | Except.error e => LoadOutcome.err (OrbitError.Physical e)

/-- Mirror of `Orbit::load_patch` (src/orbit.rs lines 220-228). -/
def Orbit.load_patch {α β γ : Type} (o : Orbit α β γ) (path : List String) :
    LoadOutcome α β γ :=
  match o.patch.load path with
  | Except.ok (some data) => LoadOutcome.ok data
  | Except.ok none => o.load_physical path
  | Except.error e => LoadOutcome.err (OrbitError.Patch e)

/-- Mirror of `Orbit::load` (src/orbit.rs lines 210-218). -/
def Orbit.load {α β γ : Type} (o : Orbit α β γ) (path : List String) :
    LoadOutcome α β γ :=
  match o.virt.load path with
  | Except.ok (some data) => LoadOutcome.ok data
  | Except.ok none => o.load_patch path
  | Except.error e => LoadOutcome.err (OrbitError.Virtual e)

/-- Mirror of Rust `Option::max` on `Option<usize>`: `None` is smallest. -/
def omax : Option Nat → Option Nat → Option Nat
  | none, b => b
  | some a, none => some a
  | some a, some b => some (max a b)

/-- Mirror of `Orbit::query_max_layered_filesize` (src/orbit.rs lines 263-266). -/
def Orbit.query_max_layered_filesize {α β γ : Type} (o : Orbit α β γ)
    (local_path : List String) : Option Nat :=
  omax (o.virt.query_filesize local_path) (o.patch.query_filesize local_path)

/-- Mirror of `Orbit::query_max_filesize` (src/orbit.rs lines 258-261). -/
def Orbit.query_max_filesize {α β γ : Type} (o : Orbit α β γ)
    (local_path : List String) : Option Nat :=
  omax (o.query_max_layered_filesize local_path) (o.physical.query_filesize local_path)

/-! ### Discovery (src/orbit.rs: LaunchPad) -/

/-- Mirror of `ConflictHandler` (src/lib.rs). -/
inductive ConflictHandler where
  | Strict
  | NoRoot
  | First
  | Last
deriving DecidableEq, Repr

/-- Mirror of `ConflictKind` (src/orbit.rs lines 19-26). -/
inductive ConflictKind where
  | StandardConflict (error_root source_root localp : List String)
  | RootConflict (bad_root conflict_file : List String)
deriving DecidableEq, Repr

/-- The file-type tag a walked directory entry carries (`walkdir` contract):
directory, regular file, or anything else (symlink etc., skipped). -/
inductive WalkEntryType where
  | wDir
  | wFile
  | wOther
deriving DecidableEq, Repr

/-- Mirror of `LaunchPad::handle_conflict` (src/orbit.rs lines 31-66), acting
on the trie.  `none` models the `Strict` panic.  Note the source's `NoRoot`
arm removes the paths of the INCOMING `root_path` (the caller's root), pushes
the joined path onto a local `removed_files` vector it then discards, and
consults `get_root_for_path` on the tree AFTER the removal. -/
def handle_conflict (t : RawNode) (handler : ConflictHandler)
    (root_path local_path : List String) : Option (RawNode × Option ConflictKind) :=
  match handler with
  | ConflictHandler.Strict => none
  | ConflictHandler.NoRoot =>
      match remove_paths_by_root t root_path with
      | none => none
      | some (t1, _removed_files) =>
          match get_root_for_path t1 local_path with
          | some root =>
              some (t1, some (ConflictKind.RootConflict root_path (root ++ local_path)))
          | none =>
              some (t1, some (ConflictKind.RootConflict root_path local_path))
  | ConflictHandler.First =>
      match get_root_for_path t local_path with
      | some root =>
          some (t, some (ConflictKind.StandardConflict root_path root local_path))
      | none =>
          some (t, some (ConflictKind.StandardConflict root_path [] local_path))
  | ConflictHandler.Last => some (t, none)

/-- Mirror of `LaunchPad::discover_in_root` (src/orbit.rs lines 88-137): fold
over the walked entries (already made relative to the root; walker errors are
skipped by the source's `if let Ok`), threading the trie, the collected pairs
and the conflict list.  A `RootConflict` returns immediately with only that
conflict; `none` models a panic (`Strict`, or an insert of a no-file-name
path, or the "Entry found without finding it first!" check). -/
def discover_in_root (handler : ConflictHandler)
    (ignoreF collectF : List String → Bool) (root : List String) :
    List (List String × WalkEntryType) → RawNode →
    List (List String × List String) → List ConflictKind →
    Option (RawNode × List (List String × List String) × List ConflictKind)
  | [], t, col, confs => some (t, col, confs)
  | (local_path, ty) :: rest, t, col, confs =>
      if collectF local_path then
        discover_in_root handler ignoreF collectF root rest t
          (col ++ [(root, local_path)]) confs
      else if ignoreF local_path then
        discover_in_root handler ignoreF collectF root rest t col confs
      else
        match ty with
        | WalkEntryType.wDir =>
            if contains_path t local_path then
              discover_in_root handler ignoreF collectF root rest t col confs
            else
              match insert_directory t root local_path with
              | none => none
              | some (t1, _) =>
                  discover_in_root handler ignoreF collectF root rest t1 col confs
        | WalkEntryType.wFile =>
            if contains_path t local_path then
              match handle_conflict t handler root local_path with
              | none => none
              | some (t1, some (ConflictKind.RootConflict bad_root conflict_file)) =>
                  some (t1, col, [ConflictKind.RootConflict bad_root conflict_file])
              | some (t1, some c) =>
                  discover_in_root handler ignoreF collectF root rest t1 col (confs ++ [c])
              | some (t1, none) =>
                  match insert_file t1 root local_path with
                  | none => none
                  | some (t2, some (error_root, loc)) =>
                      discover_in_root handler ignoreF collectF root rest t2 col
                        (confs ++ [ConflictKind.StandardConflict error_root root loc])
                  | some (t2, none) =>
                      discover_in_root handler ignoreF collectF root rest t2 col confs
            else
              match insert_file t root local_path with
              | none => none
              | some (_, some _) => none
              | some (t1, none) =>
                  discover_in_root handler ignoreF collectF root rest t1 col confs
        | WalkEntryType.wOther =>
            discover_in_root handler ignoreF collectF root rest t col confs

/-! ### Concrete fixtures for witnesses and counterexamples -/

/-- A loader whose reads always succeed with fixed bytes. -/
def constLoader (bytes : List Nat) : FileLoader Unit :=
  ⟨fun _ _ => true, fun _ _ => none, fun _ _ => Except.ok FileEntryType.File,
   fun _ _ => Except.ok bytes, fun r l => some (r ++ l)⟩

/-- A loader reporting a fixed file size and failing every read. -/
def sizeLoader (n : Option Nat) : FileLoader Unit :=
  ⟨fun _ _ => true, fun _ _ => n, fun _ _ => Except.ok FileEntryType.File,
   fun _ _ => Except.error (), fun r l => some (r ++ l)⟩

/-- A one-file trie holding `cfg.ini` bound to the given root. -/
def cfgTree (rootp : List String) : RawNode :=
  RawNode.mk ⟨⟨"", [], []⟩, FileEntryType.Directory⟩
    (ChildMap.cons "cfg.ini"
      (RawNode.mk ⟨⟨"cfg.ini", ["cfg.ini"], rootp⟩, FileEntryType.File⟩ ChildMap.nil)
      ChildMap.nil)

/-- Two files `a` and `b`, both bound to root `R1`. -/
def twoFileTree : RawNode :=
  RawNode.mk ⟨⟨"", [], []⟩, FileEntryType.Directory⟩
    (ChildMap.cons "a"
      (RawNode.mk ⟨⟨"a", ["a"], ["R1"]⟩, FileEntryType.File⟩ ChildMap.nil)
      (ChildMap.cons "b"
        (RawNode.mk ⟨⟨"b", ["b"], ["R1"]⟩, FileEntryType.File⟩ ChildMap.nil)
        ChildMap.nil))

/-! ### Claim C10 -/

/-- C10: `Tree::remove_path` panics (modelled `none`) on a path with no final
file-name component — the empty path — while a nonempty path absent from a
well-formed tree returns the soft `None` result and leaves the tree unchanged. -/
theorem c10_remove_path_total_only_with_file_name :
    ∀ (t : RawNode) (lp : List String),
      remove_path t [] = none ∧
      (wfAt t [] = true → lp ≠ [] → t.getPath lp = none →
        remove_path t lp = some (t, none)) := by
  intro t lp
  exact ⟨remove_path_empty t, fun hw h1 h2 => remove_path_absent hw h1 h2⟩

/-! ### Claim C2 -/

/-- C2 counterexample: an empty tree whose loader succeeds on everything.
The path `["x"]` is NOT in the trie, yet `load` returns its loader's bytes —
refuting "the loader is consulted only when P is present in the trie" and
"never returns file bytes". -/
theorem c2_counterexample :
    (FsTree.new (constLoader [42])).root.getPath ["x"] = none ∧
    FsTree.load (FsTree.new (constLoader [42])) ["x"] = Except.ok (some [42]) := by
  exact ⟨rfl, rfl⟩

/-- C2 amended: when the path is in the trie, `load` delegates to the loader
with the node's stored (root, local) pair; when it is NOT in the trie, the
loader is still consulted with an empty root path — its bytes are returned on
success, and only a loader error yields the "not present" `Ok(None)` result. -/
theorem c2_load_fallback_semantics :
    ∀ {ε : Type} (tr : FsTree ε) (p : List String),
      (contains_path tr.root p = false →
        FsTree.load tr p =
          (match tr.loader.load_path [] p with
           | Except.ok data => Except.ok (some data)
           | Except.error _ => Except.ok none)) ∧
      (contains_path tr.root p = true →
        ∃ node, tr.root.getPath p = some node ∧
          FsTree.load tr p =
            (tr.loader.load_path node.data.raw.root_path node.data.raw.local_path).map
              some) := by
  intro ε tr p
  constructor
  · intro h
    rw [contains_path] at h
    rw [FsTree.load]
    cases hg : tr.root.getPath p with
    | none => rfl
    | some node => rw [hg] at h; simp at h
  · intro h
    rw [contains_path] at h
    cases hg : tr.root.getPath p with
    | none => rw [hg] at h; simp at h
    | some node =>
        refine ⟨node, rfl, ?_⟩
        rw [FsTree.load, hg]

/-! ### Claim C4 -/

/-- C4: `Orbit::load` consults virtual, then patch, then physical: a present
layer's bytes or tagged error is final; a lower layer is reached only when
every higher layer reports the path absent (`Ok(None)`), and a physical-layer
absence after both overlays miss is the fatal `expect` abort, not a soft miss. -/
theorem c4_orbit_load_layer_priority :
    ∀ {α β γ : Type} (o : Orbit α β γ) (p : List String),
      Orbit.load o p =
        (match o.virt.load p with
         | Except.error e => LoadOutcome.err (OrbitError.Virtual e)
         | Except.ok (some data) => LoadOutcome.ok data
         | Except.ok none =>
             match o.patch.load p with
             | Except.error e => LoadOutcome.err (OrbitError.Patch e)
             | Except.ok (some data) => LoadOutcome.ok data
             | Except.ok none =>
                 match o.physical.load p with
                 | Except.error e => LoadOutcome.err (OrbitError.Physical e)
                 | Except.ok (some data) => LoadOutcome.ok data
                 | Except.ok none => LoadOutcome.fatal) := by
  intro α β γ o p
  rw [Orbit.load, Orbit.load_patch, Orbit.load_physical]
  cases o.virt.load p with
  | error e => rfl
  | ok v =>
      cases v with
      | some d => rfl
      | none =>
          cases o.patch.load p with
          | error e => rfl
          | ok v2 =>
              cases v2 with
              | some d => rfl
              | none =>
                  cases o.physical.load p with
                  | error e => rfl
                  | ok v3 => cases v3 <;> rfl

/-! ### Claim C5 -/

/-- C5 counterexample: virtual holds `cfg.ini` with size 5 (highest-priority
layer containing the path), physical reports 10; `query_max_filesize` returns
10, not the highest-priority layer's 5. -/
theorem c5_counterexample :
    Orbit.query_max_filesize
      (⟨⟨sizeLoader (some 10), cfgTree ["P"]⟩, ⟨sizeLoader (some 20), rootNode⟩,
        ⟨sizeLoader (some 5), cfgTree ["V"]⟩⟩ : Orbit Unit Unit Unit)
      ["cfg.ini"] = some 10 ∧
    FsTree.query_filesize (⟨sizeLoader (some 5), cfgTree ["V"]⟩ : FsTree Unit)
      ["cfg.ini"] = some 5 ∧
    contains_path (cfgTree ["V"]) ["cfg.ini"] = true ∧
    (10 : Nat) ≠ 5 := by
  refine ⟨rfl, rfl, rfl, by decide⟩

theorem omax3_eq_some (a b c : Option Nat) (s : Nat) :
    omax (omax a b) c = some s ↔
      ((a = some s ∨ b = some s ∨ c = some s) ∧
        ∀ x, (a = some x ∨ b = some x ∨ c = some x) → x ≤ s) := by
  cases a <;> cases b <;> cases c <;>
    simp [omax, or_imp, forall_and, forall_eq'] <;> omega

/-- C5 amended: `query_max_filesize` returns the NUMERIC maximum of the sizes
the three layers report (an absent report counts as smallest), not the
highest-priority layer's size; in particular, with the path absent from
virtual, 20 bytes in patch and 10 in physical, it returns 20. -/
theorem c5_query_max_filesize_numeric_max :
    (∀ {α β γ : Type} (o : Orbit α β γ) (p : List String) (s : Nat),
      Orbit.query_max_filesize o p = some s ↔
        ((o.virt.query_filesize p = some s ∨ o.patch.query_filesize p = some s ∨
            o.physical.query_filesize p = some s) ∧
          (∀ s', (o.virt.query_filesize p = some s' ∨
              o.patch.query_filesize p = some s' ∨
              o.physical.query_filesize p = some s') → s' ≤ s))) ∧
    Orbit.query_max_filesize
      (⟨⟨sizeLoader (some 10), cfgTree ["P"]⟩, ⟨sizeLoader (some 20), cfgTree ["Q"]⟩,
        ⟨sizeLoader (some 99), rootNode⟩⟩ : Orbit Unit Unit Unit)
      ["cfg.ini"] = some 20 := by
  constructor
  · intro α β γ o p s
    rw [Orbit.query_max_filesize, Orbit.query_max_layered_filesize]
    exact omax3_eq_some _ _ _ s
  · rfl

/-! ### Claim C6 -/

/-- C6: inserting (file or directory) at an occupied local path replaces the
whole subtree there: the insert returns the previous occupant's (root, local)
pair, the path now holds exactly the fresh entry (with no children), and no
strict descendant of the old occupant remains reachable by lookup or by a
walk. -/
theorem c6_insert_overwrite_replaces_subtree :
    ∀ (t : RawNode) (rp P0 : List String) (nm : String) (ty : FileEntryType)
      (occ : RawNode),
      wfAt t [] = true → t.getPath (P0 ++ [nm]) = some occ →
      ∃ t', insert_path_unchecked t rp (P0 ++ [nm]) ty =
          some (t', some (occ.data.raw.root_path, occ.data.raw.local_path)) ∧
        t'.getPath (P0 ++ [nm]) =
          some (RawNode.mk (builtNode rp P0 nm ty) ChildMap.nil) ∧
        (∀ s, s ≠ [] → t'.getPath ((P0 ++ [nm]) ++ s) = none) ∧
        (∀ d ∈ walkAll t',
          ¬ ((P0 ++ [nm]) <+: d.raw.local_path ∧ (P0 ++ [nm]) ≠ d.raw.local_path)) := by
  intro t rp P0 nm ty occ hw hocc
  obtain ⟨t', i1, i2, i3, i4, i5, i6⟩ :=
    insertAux_spec ((P0 ++ [nm]).length) t rp P0 nm ty (by simp)
  rw [insert_path_unchecked]
  have hdat : dataAt t (P0 ++ [nm]) = some occ.data := by rw [dataAt, hocc]; rfl
  rw [hdat] at i1
  have hdesc : ∀ s, s ≠ [] → t'.getPath ((P0 ++ [nm]) ++ s) = none := by
    intro s hs
    rw [RawNode.getPath_append, i2, Option.some_bind]
    cases s with
    | nil => exact absurd rfl hs
    | cons x s' => exact fresh_getPath_cons _ x s'
  refine ⟨t', i1, i2, hdesc, ?_⟩
  intro d hd
  rintro ⟨hpre, hne⟩
  obtain ⟨p, m, hp, hget, _, hlocal⟩ := walk_to_path t' [] d (i6 hw) hd
  rw [List.nil_append] at hlocal
  obtain ⟨s, hs⟩ := hpre
  have hsne : s ≠ [] := by
    rintro rfl
    exact hne (by simpa using hs)
  rw [hlocal] at hs
  rw [← hs] at hget
  rw [hdesc s hsne] at hget
  simp at hget

/-- C6 witness: a directory `a` (with a child `a/b`) is overwritten by a file
insert at `a`; the theorem's hypotheses hold at this concrete tree. -/
theorem c6_witness :
    (insert_path_unchecked
      (RawNode.mk ⟨⟨"", [], []⟩, FileEntryType.Directory⟩
        (ChildMap.cons "a"
          (RawNode.mk ⟨⟨"a", ["a"], ["R1"]⟩, FileEntryType.Directory⟩
            (ChildMap.cons "b"
              (RawNode.mk ⟨⟨"b", ["a", "b"], ["R1"]⟩, FileEntryType.File⟩ ChildMap.nil)
              ChildMap.nil))
          ChildMap.nil))
      ["R2"] (([] : List String) ++ ["a"]) FileEntryType.File).isSome = true := by
  obtain ⟨t', h1, _⟩ :=
    c6_insert_overwrite_replaces_subtree
      (RawNode.mk ⟨⟨"", [], []⟩, FileEntryType.Directory⟩
        (ChildMap.cons "a"
          (RawNode.mk ⟨⟨"a", ["a"], ["R1"]⟩, FileEntryType.Directory⟩
            (ChildMap.cons "b"
              (RawNode.mk ⟨⟨"b", ["a", "b"], ["R1"]⟩, FileEntryType.File⟩ ChildMap.nil)
              ChildMap.nil))
          ChildMap.nil))
      ["R2"] [] "a" FileEntryType.File
      (RawNode.mk ⟨⟨"a", ["a"], ["R1"]⟩, FileEntryType.Directory⟩
        (ChildMap.cons "b"
          (RawNode.mk ⟨⟨"b", ["a", "b"], ["R1"]⟩, FileEntryType.File⟩ ChildMap.nil)
          ChildMap.nil))
      (by decide) rfl
  rw [h1]
  rfl

/-! ### Claim C7 -/

/-- C7: after any insert of a local path, the inserted path and every proper
ancestor of it are present in the tree, and every ancestor that was absent
before the insert has been auto-created as a Directory entry with the empty
root-path sentinel. -/
theorem c7_insert_autocreates_ancestors :
    ∀ (t : RawNode) (rp P0 : List String) (nm : String) (ty : FileEntryType),
      ∃ t' r, insert_path_unchecked t rp (P0 ++ [nm]) ty = some (t', r) ∧
        (t'.getPath (P0 ++ [nm])).isSome = true ∧
        (∀ q, q <+: P0 → (t'.getPath q).isSome = true) ∧
        (∀ q qn, (q ++ [qn]) <+: P0 → dataAt t (q ++ [qn]) = none →
          dataAt t' (q ++ [qn]) =
            some ⟨⟨qn, q ++ [qn], []⟩, FileEntryType.Directory⟩) := by
  intro t rp P0 nm ty
  obtain ⟨t', i1, i2, i3, i4, i5, i6⟩ :=
    insertAux_spec ((P0 ++ [nm]).length) t rp P0 nm ty (by simp)
  rw [insert_path_unchecked]
  refine ⟨t', _, i1, ?_, ?_, ?_⟩
  · rw [i2]; rfl
  · intro q hq
    by_cases hds : (dataAt t q).isSome
    · have h2 := i4 q hq hds
      rw [← dataAt_isSome, h2]
      exact hds
    · rcases List.eq_nil_or_concat q with rfl | ⟨q0, qn, rfl⟩
      · rfl
      · rw [List.concat_eq_append] at *
        have hnone : dataAt t (q0 ++ [qn]) = none := by
          cases hda : dataAt t (q0 ++ [qn])
          · rfl
          · rw [hda] at hds; simp at hds
        have := i5 q0 qn hq hnone
        rw [← dataAt_isSome, this]
        rfl
  · intro q qn hq hnone
    exact i5 q qn hq hnone

/-! ### Claim C9 -/

/-- C9: insertion never inspects the parent's entry type — the `FileChild`
error variant of the source is never produced.  With a File entry occupying
`P`, `insert_file` at `P/c` succeeds, the File entry at `P` keeps its own
payload, and a fresh file node appears beneath it at `P/c`. -/
theorem c9_insert_under_file_succeeds :
    ∀ (t : RawNode) (rp P : List String) (c : String) (occ : RawNode),
      wfAt t [] = true → t.getPath P = some occ →
      occ.data.entry_type = FileEntryType.File →
      ∃ t' r, insert_file t rp (P ++ [c]) = some (t', r) ∧
        dataAt t' P = some occ.data ∧
        t'.getPath (P ++ [c]) =
          some (RawNode.mk ⟨⟨c, P ++ [c], rp⟩, FileEntryType.File⟩ ChildMap.nil) := by
  intro t rp P c occ hw hocc _
  obtain ⟨t', i1, i2, i3, i4, i5, i6⟩ :=
    insertAux_spec ((P ++ [c]).length) t rp P c FileEntryType.File (by simp)
  rw [insert_file, insert_path_unchecked]
  refine ⟨t', _, i1, ?_, ?_⟩
  · have := i4 P (List.prefix_refl P) (by rw [dataAt, hocc]; rfl)
    rw [this, dataAt, hocc]
    rfl
  · exact i2

/-- C9 witness: a file `a` bound to `R1`; inserting the file `a/b` from `R2`
succeeds and keeps `a`'s payload. -/
theorem c9_witness :
    (insert_file
      (RawNode.mk ⟨⟨"", [], []⟩, FileEntryType.Directory⟩
        (ChildMap.cons "a"
          (RawNode.mk ⟨⟨"a", ["a"], ["R1"]⟩, FileEntryType.File⟩ ChildMap.nil)
          ChildMap.nil))
      ["R2"] (["a"] ++ ["b"])).isSome = true := by
  obtain ⟨t', r, h1, _⟩ :=
    c9_insert_under_file_succeeds
      (RawNode.mk ⟨⟨"", [], []⟩, FileEntryType.Directory⟩
        (ChildMap.cons "a"
          (RawNode.mk ⟨⟨"a", ["a"], ["R1"]⟩, FileEntryType.File⟩ ChildMap.nil)
          ChildMap.nil))
      ["R2"] ["a"] "b"
      (RawNode.mk ⟨⟨"a", ["a"], ["R1"]⟩, FileEntryType.File⟩ ChildMap.nil)
      (by decide) rfl rfl
  rw [h1]
  rfl

/-! ### Claim C8 -/

/-- C8: after `remove_paths_by_root(R)` no reachable entry is bound to `R`,
and the returned list is exactly the local paths of the `R`-bound entries that
are not strict descendants of another `R`-bound entry (the top-level removed
paths, in walk order). -/
theorem c8_remove_paths_by_root_correct :
    ∀ (t : RawNode) (root : List String), wfAt t [] = true →
      ∃ t' res, remove_paths_by_root t root = some (t', res) ∧
        (∀ d ∈ walkAll t', d.raw.root_path ≠ root) ∧
        res = topLevel (rootLocals t root) := by
  intro t root hw
  obtain ⟨t', res, h1, _, h3, h4⟩ := remove_paths_by_root_spec t root hw
  exact ⟨t', res, h1, h3, h4⟩

/-- C8 witness: a tree holding `a` (R1) with nested child `a/c` (R1), plus
`b` (R1) and `d` (R2); the theorem's well-formedness hypothesis is discharged
by computation. -/
theorem c8_witness :
    ∃ t' res,
      remove_paths_by_root
        (RawNode.mk ⟨⟨"", [], []⟩, FileEntryType.Directory⟩
          (ChildMap.cons "a"
            (RawNode.mk ⟨⟨"a", ["a"], ["R1"]⟩, FileEntryType.File⟩
              (ChildMap.cons "c"
                (RawNode.mk ⟨⟨"c", ["a", "c"], ["R1"]⟩, FileEntryType.File⟩
                  ChildMap.nil)
                ChildMap.nil))
            (ChildMap.cons "b"
              (RawNode.mk ⟨⟨"b", ["b"], ["R1"]⟩, FileEntryType.File⟩ ChildMap.nil)
              (ChildMap.cons "d"
                (RawNode.mk ⟨⟨"d", ["d"], ["R2"]⟩, FileEntryType.File⟩ ChildMap.nil)
                ChildMap.nil))))
        ["R1"] = some (t', res) ∧
      (∀ d ∈ walkAll t', d.raw.root_path ≠ ["R1"]) ∧
      res = topLevel (rootLocals
        (RawNode.mk ⟨⟨"", [], []⟩, FileEntryType.Directory⟩
          (ChildMap.cons "a"
            (RawNode.mk ⟨⟨"a", ["a"], ["R1"]⟩, FileEntryType.File⟩
              (ChildMap.cons "c"
                (RawNode.mk ⟨⟨"c", ["a", "c"], ["R1"]⟩, FileEntryType.File⟩
                  ChildMap.nil)
                ChildMap.nil))
            (ChildMap.cons "b"
              (RawNode.mk ⟨⟨"b", ["b"], ["R1"]⟩, FileEntryType.File⟩ ChildMap.nil)
              (ChildMap.cons "d"
                (RawNode.mk ⟨⟨"d", ["d"], ["R2"]⟩, FileEntryType.File⟩ ChildMap.nil)
                ChildMap.nil))))
        ["R1"]) :=
  c8_remove_paths_by_root_correct _ ["R1"] (by decide)

/-! ### Claim C1 -/

/-- C1 counterexample: tree with files `a` and `b` both bound to `R1`; a file
entry `a` arrives from root `R2` under the `NoRoot` policy.  The source evicts
the entries of the INCOMING root `R2` (there are none), so both `R1` entries
survive, and the returned root conflict names `R2`, not `R1` — refuting
"every entry previously bound to the occupant's root R1 is removed" and
"a RootConflict naming the evicted root R1". -/
theorem c1_counterexample :
    discover_in_root ConflictHandler.NoRoot (fun _ => false) (fun _ => false)
        ["R2"] [(["a"], WalkEntryType.wFile)] twoFileTree [] [] =
      some (twoFileTree, [], [ConflictKind.RootConflict ["R2"] ["R1", "a"]]) ∧
    dataAt twoFileTree ["b"] = some ⟨⟨"b", ["b"], ["R1"]⟩, FileEntryType.File⟩ ∧
    dataAt twoFileTree ["a"] = some ⟨⟨"a", ["a"], ["R1"]⟩, FileEntryType.File⟩ ∧
    (["R2"] : List String) ≠ ["R1"] := by
  refine ⟨rfl, rfl, rfl, by decide⟩

/-- C1 amended: under `NoRoot`, a colliding file insert from root `R2` evicts
every entry bound to the INCOMING root `R2` (not the occupant's root), does
not insert the incoming entry, and `discover_in_root` returns immediately with
exactly one `RootConflict` whose first component is `R2` and whose second is
the surviving occupant's root joined with the contested path (or the bare
path when no occupant survives the eviction). -/
theorem c1_noroot_evicts_incoming_root :
    ∀ (ign col : List String → Bool) (R2 lp : List String)
      (rest : List (List String × WalkEntryType)) (t : RawNode)
      (colA : List (List String × List String)) (confsA : List ConflictKind),
      wfAt t [] = true → col lp = false → ign lp = false →
      contains_path t lp = true →
      ∃ t', discover_in_root ConflictHandler.NoRoot ign col R2
          ((lp, WalkEntryType.wFile) :: rest) t colA confsA =
        some (t', colA,
          [(match get_root_for_path t' lp with
            | some r => ConflictKind.RootConflict R2 (r ++ lp)
            | none => ConflictKind.RootConflict R2 lp)]) ∧
        (∀ d ∈ walkAll t', d.raw.root_path ≠ R2) := by
  intro ign col R2 lp rest t colA confsA hw hcol hign hcont
  obtain ⟨t1, res, hrm, hwf1, hnog, hres⟩ := remove_paths_by_root_spec t R2 hw
  refine ⟨t1, ?_, hnog⟩
  rw [discover_in_root]
  rw [if_neg (by rw [hcol]; exact Bool.false_ne_true)]
  rw [if_neg (by rw [hign]; exact Bool.false_ne_true)]
  rw [if_pos hcont]
  cases hr : get_root_for_path t1 lp with
  | some r =>
      have hhc : handle_conflict t ConflictHandler.NoRoot R2 lp =
          some (t1, some (ConflictKind.RootConflict R2 (r ++ lp))) := by
        rw [handle_conflict, hrm]
        show (match get_root_for_path t1 lp with
          | some root => some (t1, some (ConflictKind.RootConflict R2 (root ++ lp)))
          | none => some (t1, some (ConflictKind.RootConflict R2 lp))) = _
        rw [hr]
      rw [hhc]
  | none =>
      have hhc : handle_conflict t ConflictHandler.NoRoot R2 lp =
          some (t1, some (ConflictKind.RootConflict R2 lp)) := by
        rw [handle_conflict, hrm]
        show (match get_root_for_path t1 lp with
          | some root => some (t1, some (ConflictKind.RootConflict R2 (root ++ lp)))
          | none => some (t1, some (ConflictKind.RootConflict R2 lp))) = _
        rw [hr]
      rw [hhc]

/-- C1 witness: the amended theorem applied to the counterexample fixture. -/
theorem c1_witness :
    ∃ t', discover_in_root ConflictHandler.NoRoot (fun _ => false) (fun _ => false)
        ["R2"] [(["a"], WalkEntryType.wFile)] twoFileTree [] [] =
      some (t', [],
        [(match get_root_for_path t' ["a"] with
          | some r => ConflictKind.RootConflict ["R2"] (r ++ ["a"])
          | none => ConflictKind.RootConflict ["R2"] ["a"])]) ∧
      (∀ d ∈ walkAll t', d.raw.root_path ≠ ["R2"]) :=
  c1_noroot_evicts_incoming_root (fun _ => false) (fun _ => false) ["R2"] ["a"]
    [] twoFileTree [] [] (by decide) rfl rfl (by decide)

/-! ### Claim C3 -/

/-- C3 counterexample: file `cfg.ini` bound to `R1`; a file entry at the same
path arrives from `R2` under the `Last` policy.  The insert is performed (the
path is rebound to `R2`), but — contrary to the claim — a `StandardConflict`
IS added to the returned list: `handle_conflict` returns `None` for `Last`,
and the subsequent `insert_file` returns the displaced occupant's pair, which
`discover_in_root` pushes as a conflict. -/
theorem c3_counterexample :
    (discover_in_root ConflictHandler.Last (fun _ => false) (fun _ => false)
        ["R2"] [(["cfg.ini"], WalkEntryType.wFile)] (cfgTree ["R1"]) [] []).map
      (fun x => x.2.2) =
      some [ConflictKind.StandardConflict ["R1"] ["R2"] ["cfg.ini"]] ∧
    (discover_in_root ConflictHandler.Last (fun _ => false) (fun _ => false)
        ["R2"] [(["cfg.ini"], WalkEntryType.wFile)] (cfgTree ["R1"]) [] []).map
      (fun x => get_root_for_path x.1 ["cfg.ini"]) = some (some ["R2"]) ∧
    [ConflictKind.StandardConflict ["R1"] ["R2"] ["cfg.ini"]] ≠
      ([] : List ConflictKind) := by
  refine ⟨rfl, rfl, by simp⟩

/-- C3 amended: under `Last`, a colliding file insert from root `R2` at an
occupied path is performed — the path is rebound to the incoming entry — but a
`StandardConflict` carrying the displaced occupant's `(root_path, local_path)`
and the incoming root IS appended to the conflict list before discovery
continues. -/
theorem c3_last_overwrites_but_reports_conflict :
    ∀ (ign col : List String → Bool) (R2 P0 : List String) (nm : String)
      (rest : List (List String × WalkEntryType)) (t : RawNode) (d : RawTreeNode)
      (colA : List (List String × List String)) (confsA : List ConflictKind),
      col (P0 ++ [nm]) = false → ign (P0 ++ [nm]) = false →
      dataAt t (P0 ++ [nm]) = some d →
      ∃ t',
        insert_file t R2 (P0 ++ [nm]) =
          some (t', some (d.raw.root_path, d.raw.local_path)) ∧
        dataAt t' (P0 ++ [nm]) = some (builtNode R2 P0 nm FileEntryType.File) ∧
        discover_in_root ConflictHandler.Last ign col R2
            ((P0 ++ [nm], WalkEntryType.wFile) :: rest) t colA confsA =
          discover_in_root ConflictHandler.Last ign col R2 rest t' colA
            (confsA ++ [ConflictKind.StandardConflict d.raw.root_path R2
              d.raw.local_path]) := by
  intro ign col R2 P0 nm rest t d colA confsA hcol hign hd
  have hfuel : (P0 ++ [nm]).length = P0.length + 1 := by simp
  obtain ⟨t', i1, i2, _, _, _, _⟩ :=
    insertAux_spec (P0.length + 1) t R2 P0 nm FileEntryType.File (Nat.lt_succ_self _)
  have hins : insert_file t R2 (P0 ++ [nm]) =
      some (t', some (d.raw.root_path, d.raw.local_path)) := by
    rw [insert_file, insert_path_unchecked, hfuel, i1, hd]
    rfl
  have hcont : contains_path t (P0 ++ [nm]) = true := by
    rw [contains_path, ← dataAt_isSome, hd]
    rfl
  refine ⟨t', hins, ?_, ?_⟩
  · rw [dataAt, i2]
    rfl
  · rw [discover_in_root]
    rw [if_neg (by rw [hcol]; exact Bool.false_ne_true)]
    rw [if_neg (by rw [hign]; exact Bool.false_ne_true)]
    rw [if_pos hcont]
    have hhc : handle_conflict t ConflictHandler.Last R2 (P0 ++ [nm]) =
        some (t, none) := rfl
    simp only [hhc, hins]

/-- C3 witness: the amended theorem applied to the counterexample fixture
(`cfg.ini` bound to `R1`, incoming root `R2`), hypotheses discharged by
computation. -/
theorem c3_witness :
    ∃ t',
      insert_file (cfgTree ["R1"]) ["R2"] ([] ++ ["cfg.ini"]) =
        some (t', some ((⟨⟨"cfg.ini", ["cfg.ini"], ["R1"]⟩,
          FileEntryType.File⟩ : RawTreeNode).raw.root_path,
          (⟨⟨"cfg.ini", ["cfg.ini"], ["R1"]⟩,
            FileEntryType.File⟩ : RawTreeNode).raw.local_path)) ∧
      dataAt t' ([] ++ ["cfg.ini"]) =
        some (builtNode ["R2"] [] "cfg.ini" FileEntryType.File) ∧
      discover_in_root ConflictHandler.Last (fun _ => false) (fun _ => false)
          ["R2"] (([] ++ ["cfg.ini"], WalkEntryType.wFile) :: []) (cfgTree ["R1"]) [] [] =
        discover_in_root ConflictHandler.Last (fun _ => false) (fun _ => false)
          ["R2"] [] t' []
          ([] ++ [ConflictKind.StandardConflict
            (⟨⟨"cfg.ini", ["cfg.ini"], ["R1"]⟩,
              FileEntryType.File⟩ : RawTreeNode).raw.root_path ["R2"]
            (⟨⟨"cfg.ini", ["cfg.ini"], ["R1"]⟩,
              FileEntryType.File⟩ : RawTreeNode).raw.local_path]) :=
  c3_last_overwrites_but_reports_conflict (fun _ => false) (fun _ => false)
    ["R2"] [] "cfg.ini" [] (cfgTree ["R1"])
    ⟨⟨"cfg.ini", ["cfg.ini"], ["R1"]⟩, FileEntryType.File⟩ [] [] rfl rfl rfl
